import Mathlib

/-!
Verification of the text-chunking engine of this repository.

The development shallowly embeds the chunking module
(`services/chunking.py`: `SmartChunker.split`, `SmartChunker._add_to_chunks`,
`SmartChunker._split_long_sentence`, `SmartChunker._simple_sentence_split`,
`num_tokens`, the module-level engine state), the text-normalization
collaborator (`services/html_stripper.py`: `clean_text_advanced` and its
helpers) and the router entry point (`routers/chunking.py`: `_chunk_text`).

External libraries are embedded as follows:
* the tiktoken encoding is a parameter (`Tok`: an `encode`/`decode` pair;
  `numTokens` is the length of the encoding), so theorems quantify over it
  and concrete instances evaluate it;
* the NLTK sentence and word segmenters are parameters
  (`sentTok`, `wordTok : String → List String`); the repository's own
  regex/whitespace fallback segmenters (`_simple_sentence_split`,
  `str.split()`) are embedded concretely and used for concrete instances;
* Python string primitives (`str.strip`, `str.split`, `" ".join`, negative
  slicing) are embedded over `List Char` with Python semantics.
-/

/-- Python's whitespace class for `str.strip` / `str.split` / regex `\s`
on ASCII text: space, tab, newline, carriage return, vertical tab, form feed. -/
def isWsPy (c : Char) : Bool :=
  c = ' ' || c = '\t' || c = '\n' || c = '\r' || c = '\x0b' || c = '\x0c'

/-- Drop a leading whitespace run (the left half of Python `str.strip()`). -/
def dropLeadWs (l : List Char) : List Char := l.dropWhile isWsPy

/-- Drop a trailing whitespace run (the right half of Python `str.strip()`). -/
def dropTrailWs (l : List Char) : List Char :=
  l.foldr (fun c acc => if acc.isEmpty && isWsPy c then [] else c :: acc) []

/-- Python `str.strip()` (no arguments): remove leading and trailing
whitespace. -/
def pyStrip (s : String) : String := String.mk (dropTrailWs (dropLeadWs s.data))

/-- Python `" ".join(l)`: joins with single spaces; the join of `[]` is `""`. -/
def pyJoinSp : List String → String
  | [] => ""
  | [s] => s
  | s :: rest => s ++ " " ++ pyJoinSp rest

/-- Worker for Python `str.split()` (no arguments): the accumulator holds the
characters of the word in progress, reversed. -/
def wordsCore : List Char → List Char → List (List Char)
  | [], acc => if acc.isEmpty then [] else [acc.reverse]
  | c :: rest, acc =>
    if isWsPy c then
      if acc.isEmpty then wordsCore rest [] else acc.reverse :: wordsCore rest []
    else wordsCore rest (c :: acc)

/-- Python `str.split()` (no arguments): maximal runs of non-whitespace
characters, in order; never produces empty strings. -/
def pySplitWs (s : String) : List String := (wordsCore s.data []).map String.mk

/-- The tokenizer interface of the engine (`tiktoken` `Encoding`): reversible
`encode`/`decode` between text and token ids.  The chunking algorithm is
verified parametrically in it. -/
structure Tok where
  encode : String → List Nat
  decode : List Nat → String

/-- `num_tokens` on an initialized engine: `len(encoding.encode(text))`
(`services/chunking.py`, line 106). -/
def numTokens (tok : Tok) (s : String) : Nat := (tok.encode s).length

/-- Python negative-start slicing `l[-k:]`.  For `k > 0` this is the suffix of
the last `min(k, len(l))` elements; for `k = 0` it is, by Python semantics,
`l[0:]`, i.e. the whole list. -/
def pySliceFromNeg (l : List Nat) (k : Nat) : List Nat :=
  if k = 0 then l else l.drop (l.length - k)

/-- A concrete tokenizer used to evaluate the engine: each character is one
token (its code point).  Like the real byte-pair encoding it satisfies
`decode (encode s) = s` and `numTokens "" = 0`. -/
def charTok : Tok where
  encode s := s.data.map Char.toNat
  decode l := String.mk (l.map Char.ofNat)

-- sanity examples (evaluation of the embedded primitives)
example : pyStrip "  a b\t " = "a b" := by decide
example : pyJoinSp ["a", "b", "c"] = "a b c" := by decide
example : pyJoinSp [] = "" := rfl
example : pySplitWs " a  bc \t d " = ["a", "bc", "d"] := by decide
example : pySplitWs "" = [] := rfl
example : numTokens charTok "abc de" = 6 := by decide
example : pySliceFromNeg [1, 2, 3, 4] 2 = [3, 4] := by decide
example : pySliceFromNeg [1, 2, 3, 4] 0 = [1, 2, 3, 4] := by decide
example : pySliceFromNeg [1, 2] 5 = [1, 2] := by decide

/-! ## Normalization collaborator (`services/html_stripper.py`) -/

/-- Python `html.unescape`, modelled for the semicolon-terminated named
references `&amp;` `&lt;` `&gt;` `&quot;`; faithful on inputs that use only
these (a reference is replaced once and scanning continues after it; an
`'&'` not starting a known reference is kept as data).  `fuel` bounds the
number of scan steps; each step consumes at least one character, so fuel
`length + 1` suffices and the fuel-exhausted arm is unreachable. -/
def unescapeFuel : Nat → List Char → List Char
  | 0, l => l
  | _, [] => []
  | fuel + 1, c :: rest =>
    if c = '&' then
      if ['a', 'm', 'p', ';'].isPrefixOf rest then
        '&' :: unescapeFuel fuel (rest.drop 4)
      else if ['l', 't', ';'].isPrefixOf rest then
        '<' :: unescapeFuel fuel (rest.drop 3)
      else if ['g', 't', ';'].isPrefixOf rest then
        '>' :: unescapeFuel fuel (rest.drop 3)
      else if ['q', 'u', 'o', 't', ';'].isPrefixOf rest then
        '"' :: unescapeFuel fuel (rest.drop 5)
      else c :: unescapeFuel fuel rest
    else c :: unescapeFuel fuel rest

/-- `html.unescape` on a character list, with sufficient fuel. -/
def unescapeAux (l : List Char) : List Char := unescapeFuel (l.length + 1) l

/-- `html.unescape` on strings (step 1 of `clean_text_advanced`). -/
def htmlUnescape (s : String) : String := String.mk (unescapeAux s.data)

/-- Split at the first `'<'`: returns the data before it and, when a `'<'`
exists, the remainder after it. -/
def splitAtLt : List Char → List Char × Option (List Char)
  | [] => ([], none)
  | c :: rest =>
    if c = '<' then ([], some rest)
    else
      let p := splitAtLt rest
      (c :: p.1, p.2)

/-- Drop up to and including the first `'>'`; `none` when there is no `'>'`
(the unterminated tag stays in the parser's buffer and is never emitted,
because `_strip_tags` calls `get_data()` without `close()`). -/
def dropToGt : List Char → Option (List Char)
  | [] => none
  | c :: rest => if c = '>' then some rest else dropToGt rest

/-- `HTMLParser.goahead`'s wait-for-more-text test for a trailing data
segment: the segment is withheld (buffered) iff its last `'&'` within the
final 34 characters has no whitespace and no `';'` after it.  Walks the
reversed window: a stop character before any `'&'` means no pending
reference. -/
def pendingAmpRev : List Char → Bool
  | [] => false
  | c :: rest =>
    if c = '&' then true
    else if isWsPy c || c = ';' then false
    else pendingAmpRev rest

/-- Whether a trailing data segment is withheld by `HTMLParser` pending more
input (see `pendingAmpRev`). -/
def pendingAmp (seg : List Char) : Bool :=
  pendingAmpRev ((seg.drop (seg.length - 34)).reverse)

/-- One `MLStripper.feed` followed by `get_data()` (`_strip_tags`), with
`convert_charrefs=True`: data outside tags is emitted with character
references unescaped; `<tag ...>` constructs are dropped; a `'<'` not starting
a tag-like construct is emitted as data; unterminated trailing constructs
(an open tag, or a trailing data segment with a pending `'&'`) are buffered
and lost.  Modelled for tags without quoted `'>'` and without comments whose
body contains `'>'`.  The `fuel` argument bounds the number of loop
iterations; each iteration consumes at least one character, so
`fuel = length + 1` suffices. -/
def stripAux : Nat → List Char → List Char
  | 0, _ => []
  | fuel + 1, l =>
    match splitAtLt l with
    | (pre, none) => if pendingAmp pre then [] else unescapeAux pre
    | (pre, some post) =>
      unescapeAux pre ++
        match post with
        | [] => []
        | c :: rest =>
          if c.isAlpha || c = '/' || c = '!' || c = '?' then
            match dropToGt (c :: rest) with
            | some rest2 => stripAux fuel rest2
            | none => []
          else '<' :: stripAux fuel (c :: rest)

/-- `_strip_tags(text)`: `MLStripper` over the whole input
(`services/html_stripper.py`, lines 20-23). -/
def stripTags (s : String) : String := String.mk (stripAux (s.data.length + 1) s.data)

/-- `unicodedata.normalize('NFKD', text)`, modelled as the identity: NFKD is
the identity on the ASCII fragment that the surrounding pipeline produces and
that the theorems below are stated on. -/
def nfkdNormalize (s : String) : String := s

/-- Python `string.printable` membership: ASCII 32..126 plus
`\t \n \r \x0b \x0c`. -/
def isPrintablePy (c : Char) : Bool :=
  (32 ≤ c.toNat && c.toNat ≤ 126) || c = '\t' || c = '\n' || c = '\r' ||
    c = '\x0b' || c = '\x0c'

/-- `''.join(char for char in text if char in string.printable)`. -/
def filterPrintable (s : String) : String := String.mk (s.data.filter isPrintablePy)

mutual

/-- Collapse each whitespace run to a single space (`re.sub(r'\s+', ' ', ·)`).
`collapseAux` is in copy mode; `collapseSkip` runs after a space has been
emitted for the current whitespace run. -/
def collapseAux : List Char → List Char
  | [] => []
  | c :: rest => if isWsPy c then ' ' :: collapseSkip rest else c :: collapseAux rest

/-- See `collapseAux`: skip the rest of a whitespace run. -/
def collapseSkip : List Char → List Char
  | [] => []
  | c :: rest => if isWsPy c then collapseSkip rest else c :: collapseAux rest

end

/-- `re.sub(r'\s+', ' ', text).strip()` (the final step of
`clean_text_advanced`). -/
def collapseWs (s : String) : String := pyStrip (String.mk (collapseAux s.data))

/-- `clean_text_advanced` (`services/html_stripper.py`, lines 25-46):
unescape entities, strip tags, unicode-normalize, keep printable characters,
collapse whitespace; empty input is returned unchanged. -/
def clean_text_advanced (text : String) : String :=
  if text = "" then text
  else collapseWs (filterPrintable (nfkdNormalize (stripTags (htmlUnescape text))))

-- sanity examples against hand-traced CPython behavior
example : htmlUnescape "&amp;lt;" = "&lt;" := by decide
example : stripTags "&lt;" = "<" := by decide
example : stripTags "<" = "" := by decide
example : stripTags "a<b>c" = "ac" := by decide
example : stripTags "abc&" = "" := by decide
example : stripTags "abc& " = "abc& " := by decide
example : clean_text_advanced "&amp;lt;" = "<" := by decide
example : clean_text_advanced "<" = "" := by decide
example : clean_text_advanced "a\t\n b" = "a b" := by decide
example : clean_text_advanced "\x00" = "" := by decide
example : clean_text_advanced "hi there." = "hi there." := by decide

/-! ## Sentence-splitting fallback (`SmartChunker._simple_sentence_split`) -/

/-- The sentence-ending punctuation class of the fallback regex `[.!?]+\s+`. -/
def isSentPunct (c : Char) : Bool := c = '.' || c = '!' || c = '?'

mutual

/-- `re.split(r'[.!?]+\s+', text)` as a three-state scanner; `acc` holds the
current segment reversed.  Copy mode. -/
def sssNormal : List Char → List Char → List (List Char)
  | [], acc => [acc.reverse]
  | c :: rest, acc =>
    if isSentPunct c then sssPunct rest acc [c] else sssNormal rest (c :: acc)

/-- After a punctuation run `ps` (reversed): more punctuation extends the run,
whitespace completes the separator and closes the segment, anything else
returns the run to the segment. -/
def sssPunct : List Char → List Char → List Char → List (List Char)
  | [], acc, ps => [(ps ++ acc).reverse]
  | c :: rest, acc, ps =>
    if isSentPunct c then sssPunct rest acc (c :: ps)
    else if isWsPy c then acc.reverse :: sssWs rest
    else sssNormal rest (c :: (ps ++ acc))

/-- Inside the `\s+` part of a matched separator. -/
def sssWs : List Char → List (List Char)
  | [] => [[]]
  | c :: rest => if isWsPy c then sssWs rest else sssNormal rest [c]

end

/-- `SmartChunker._simple_sentence_split` (`services/chunking.py`,
lines 173-178): regex split on `[.!?]+\s+`, then strip each part and drop the
empty ones. -/
def simple_sentence_split (text : String) : List String :=
  (((sssNormal text.data []).map (fun l => pyStrip (String.mk l))).filter
    (fun s => !(s = "")))

-- sanity examples against Python re.split behavior
example : simple_sentence_split "abcdefg. ABCDEFGH." = ["abcdefg", "ABCDEFGH."] := by decide
example : simple_sentence_split "" = [] := by decide
example : simple_sentence_split "a.. b!? c" = ["a", "b", "c"] := by decide
example : simple_sentence_split "a.b" = ["a.b"] := by decide
example : simple_sentence_split "hello world" = ["hello world"] := by decide

/-! ## The chunk assembler (`SmartChunker`) -/

/-- `SmartChunker._add_to_chunks` (`services/chunking.py`, lines 250-272).
State is the pair (`chunks`, `current_chunk`).  If joining the candidate
`sentence` onto `current_chunk` exceeds `chunk_limit`, the joined
`current_chunk` is flushed to `chunks` and `current_chunk` restarts as the
two-element buffer [decoded-and-stripped overlap seed, `sentence`]; the seed
is the decode of `tokens[-overlap:]` of the flushed chunk's encoding.
Otherwise `sentence` is appended to `current_chunk`. -/
def addToChunks (tok : Tok) (limit overlap : Nat) (sentence : String)
    (st : List String × List String) : List String × List String :=
  let testTokens := numTokens tok (pyJoinSp (st.2 ++ [sentence]))
  if limit < testTokens then
    let flat := pyJoinSp st.2
    let toks := tok.encode flat
    let overlapText := tok.decode (pySliceFromNeg toks overlap)
    (st.1 ++ [flat], [pyStrip overlapText, sentence])
  else
    (st.1, st.2 ++ [sentence])

/-- The body of the word loop of `SmartChunker._split_long_sentence`
(lines 231-242).  State is the pair (`word_chunks`, `current_words`): a word
whose tentative join overflows a non-empty group closes the group and starts
a new one seeded with that word. -/
def splitWordsStep (tok : Tok) (limit : Nat) (st : List String × List String)
    (word : String) : List String × List String :=
  if limit < numTokens tok (pyJoinSp (st.2 ++ [word])) ∧ st.2 ≠ [] then
    (st.1 ++ [pyJoinSp st.2], [word])
  else (st.1, st.2 ++ [word])

/-- The word loop of `SmartChunker._split_long_sentence` run from the empty
state. -/
def splitWordsFold (tok : Tok) (limit : Nat) (ws : List String) :
    List String × List String :=
  ws.foldl (splitWordsStep tok limit) ([], [])

/-- `SmartChunker._split_long_sentence` (`services/chunking.py`,
lines 215-248): word-tokenize; a sentence of at most one word is returned
unchanged; otherwise group words under the token limit, flush the last group,
and fall back to the whole sentence if no group was produced. -/
def splitLongSentence (tok : Tok) (limit : Nat) (wordTok : String → List String)
    (sentence : String) : List String :=
  let ws := wordTok sentence
  if ws.length ≤ 1 then [sentence]
  else
    let st := splitWordsFold tok limit ws
    let wordChunks := if st.2 ≠ [] then st.1 ++ [pyJoinSp st.2] else st.1
    if wordChunks ≠ [] then wordChunks else [sentence]

/-- The body of the `for sub in subchunks` loop of `SmartChunker.split`
(lines 145-161): skip whitespace-only subchunks; a subchunk within
`chunk_limit` goes through the merge step; an oversized subchunk flushes the
buffer (when non-empty) and is emitted standalone, stripped. -/
def processSub (tok : Tok) (limit overlap : Nat)
    (st : List String × List String) (sub : String) : List String × List String :=
  if pyStrip sub = "" then st
  else if numTokens tok sub ≤ limit then addToChunks tok limit overlap (pyStrip sub) st
  else
    let chunks := if st.2 ≠ [] then st.1 ++ [pyJoinSp st.2] else st.1
    (chunks ++ [pyStrip sub], [])

/-- The body of the `for sentence in sentences` loop of `SmartChunker.split`
(lines 132-164): strip the sentence and skip it if empty; if its token count
exceeds `chunk_limit + int(chunk_limit * 0.1)`, decompose it with
`_split_long_sentence` and process the subchunks; otherwise merge it.
`int(chunk_limit * 0.1)` is modelled as `limit / 10` (floor), its value at
every chunk limit where the double rounding of `limit * 0.1` does not cross
an integer. -/
def processSentence (tok : Tok) (limit overlap : Nat)
    (wordTok : String → List String)
    (st : List String × List String) (raw : String) : List String × List String :=
  let sentence := pyStrip raw
  if sentence = "" then st
  else if limit + limit / 10 < numTokens tok sentence then
    (splitLongSentence tok limit wordTok sentence).foldl (processSub tok limit overlap) st
  else addToChunks tok limit overlap sentence st

/-- `SmartChunker.split` (`services/chunking.py`, lines 117-171): normalize
the text with `clean_text_advanced`, sentence-tokenize (`sentTok` stands for
`nltk.sent_tokenize`, or `_simple_sentence_split` on its failure), run the
sentence loop from the empty state, and flush a non-empty final buffer. -/
def splitText (tok : Tok) (limit overlap : Nat)
    (sentTok wordTok : String → List String) (text : String) : List String :=
  let sentences := sentTok (clean_text_advanced text)
  let st := sentences.foldl (processSentence tok limit overlap wordTok) ([], [])
  if st.2 ≠ [] then st.1 ++ [pyJoinSp st.2] else st.1

-- sanity examples: hand-traced behavior of the embedded assembler
example :
    splitText charTok 10 5 simple_sentence_split pySplitWs "abcdefg. ABCDEFGH." =
      ["abcdefg", "cdefg ABCDEFGH."] := by decide
example :
    splitText charTok 10 5 simple_sentence_split pySplitWs "abcdefghijk" =
      ["", " abcdefghijk"] := by decide
example :
    splitText charTok 1000 0 simple_sentence_split pySplitWs "A. B. C." =
      ["A B C."] := by decide
example :
    splitText charTok 10 5 simple_sentence_split pySplitWs "\x00" = [] := by decide

/-! ## Engine state and entry points -/

/-- The two caller-visible error classes of the chunking entry points:
`RuntimeError("Chunking service not initialized")` and the router's
`ValueError("Text content cannot be empty")`. -/
inductive ChunkError where
  | uninitialized
  | invalidInput
deriving DecidableEq

/-- The module-level globals `encoding` / `is_initialized` of
`services/chunking.py` (lines 9-11), which the one-time setup
(`initialize_chunking_service`) sets together: either the engine is not yet
set up, or it holds the encoding. -/
inductive EngineState where
  | uninit
  | ready (tok : Tok)

/-- `num_tokens` (`services/chunking.py`, lines 102-106): raises
`RuntimeError` when `is_initialized` is false, otherwise counts tokens. -/
def num_tokens (st : EngineState) (text : String) : Except ChunkError Nat :=
  match st with
  | .uninit => .error .uninitialized
  | .ready tok => .ok (numTokens tok text)

/-- The two budget parameters a constructed `SmartChunker` records. -/
structure SmartChunker where
  chunk_limit : Nat
  overlap : Nat

/-- `SmartChunker.__init__` (`services/chunking.py`, lines 109-115): raises
`RuntimeError` when `is_initialized` is false, otherwise records the
parameters. -/
def SmartChunker.create (st : EngineState) (chunk_token_limit overlap_tokens : Nat) :
    Except ChunkError SmartChunker :=
  match st with
  | .uninit => .error .uninitialized
  | .ready _ => .ok ⟨chunk_token_limit, overlap_tokens⟩

/-- `ChunkRequest` (`models/chunk_model.py`, lines 5-8).  The model declares
no constraint on `chunk_token_limit` or `overlap_tokens` (plain optional
ints), so no value of either is rejected; they are modelled at their
non-negative Python values. -/
structure ChunkRequest where
  text : String
  chunk_token_limit : Nat
  overlap_tokens : Nat

/-- `_chunk_text` (`routers/chunking.py`, lines 14-51), reduced to the chunk
list it produces: the text is validated first
(`if not request.text or not request.text.strip(): raise ValueError`), then
`SmartChunker(...)` is constructed — which raises when the engine is
uninitialized — and `chunker.split(request.text)` is returned. -/
def chunkText (st : EngineState) (sentTok wordTok : String → List String)
    (req : ChunkRequest) : Except ChunkError (List String) :=
  if req.text = "" || pyStrip req.text = "" then .error .invalidInput
  else
    match st with
    | .uninit => .error .uninitialized
    | .ready tok =>
      .ok (splitText tok req.chunk_token_limit req.overlap_tokens sentTok wordTok req.text)

-- sanity examples
example : num_tokens .uninit "abc" = .error .uninitialized := rfl
example :
    chunkText (.ready charTok) simple_sentence_split pySplitWs ⟨"  ", 100, 20⟩ =
      .error .invalidInput := rfl
example :
    chunkText (.ready charTok) simple_sentence_split pySplitWs ⟨"hi", 0, 0⟩ =
      .ok ["hi"] := rfl

/-! ## Lemmas about the embedded string primitives -/

theorem pyJoinSp_cons_cons (s r : String) (rs : List String) :
    pyJoinSp (s :: r :: rs) = s ++ " " ++ pyJoinSp (r :: rs) := rfl

theorem pyJoinSp_singleton (s : String) : pyJoinSp [s] = s := rfl

theorem pyJoinSp_append_singleton (l : List String) (u : String) (h : l ≠ []) :
    pyJoinSp (l ++ [u]) = pyJoinSp l ++ " " ++ u := by
  induction l with
  | nil => exact absurd rfl h
  | cons s rest ih =>
    cases rest with
    | nil => rfl
    | cons r rs =>
      have ih2 := ih (by simp)
      rw [List.cons_append] at ih2
      rw [List.cons_append, List.cons_append, pyJoinSp_cons_cons, ih2,
        pyJoinSp_cons_cons]
      simp [String.append_assoc]

theorem dropTrailWs_cons (c : Char) (t : List Char) :
    dropTrailWs (c :: t) =
      if (dropTrailWs t).isEmpty && isWsPy c then [] else c :: dropTrailWs t := rfl

/-- `dropTrailWs` removes a whitespace suffix and nothing else. -/
theorem dropTrailWs_spec (l : List Char) :
    ∃ suf, l = dropTrailWs l ++ suf ∧ ∀ c ∈ suf, isWsPy c = true := by
  induction l with
  | nil => exact ⟨[], rfl, by simp⟩
  | cons c t ih =>
    obtain ⟨suf, ht, hsuf⟩ := ih
    rw [dropTrailWs_cons]
    by_cases hempty : (dropTrailWs t).isEmpty = true
    · by_cases hws : isWsPy c = true
      · refine ⟨c :: t, ?_, ?_⟩
        · simp [hempty, hws]
        · intro d hd
          rcases List.mem_cons.mp hd with h | h
          · exact h ▸ hws
          · have : dropTrailWs t = [] := by
              cases h' : dropTrailWs t with
              | nil => rfl
              | cons a b => rw [h'] at hempty; simp [List.isEmpty] at hempty
            rw [ht, this, List.nil_append] at h
            exact hsuf d h
      · refine ⟨suf, ?_, hsuf⟩
        simp only [hempty, hws, Bool.and_false, Bool.false_eq_true, if_false]
        rw [List.cons_append, ← ht]
    · refine ⟨suf, ?_, hsuf⟩
      have : ((dropTrailWs t).isEmpty && isWsPy c) = false := by
        simp [hempty]
      simp only [this, Bool.false_eq_true, if_false]
      rw [List.cons_append, ← ht]

/-- `dropTrailWs` does nothing when the last element is not whitespace. -/
theorem dropTrailWs_eq_self (l : List Char)
    (h : ∀ c, l.getLast? = some c → isWsPy c = false) : dropTrailWs l = l := by
  induction l with
  | nil => rfl
  | cons c t ih =>
    rw [dropTrailWs_cons]
    cases t with
    | nil =>
      have := h c (by simp)
      simp [dropTrailWs, this]
    | cons a b =>
      have ht : dropTrailWs (a :: b) = a :: b := by
        apply ih
        intro d hd
        apply h
        rw [List.getLast?_cons_cons]
        exact hd
      rw [ht]
      simp [List.isEmpty]

/-- The last element of `dropTrailWs l` is never whitespace. -/
theorem dropTrailWs_getLast (l : List Char) :
    ∀ c, (dropTrailWs l).getLast? = some c → isWsPy c = false := by
  induction l with
  | nil => intro c h; simp [dropTrailWs] at h
  | cons c t ih =>
    intro d hd
    rw [dropTrailWs_cons] at hd
    by_cases hcond : ((dropTrailWs t).isEmpty && isWsPy c) = true
    · rw [if_pos hcond] at hd; simp at hd
    · rw [if_neg (by simp [hcond])] at hd
      cases h' : dropTrailWs t with
      | nil =>
        rw [h'] at hd
        simp only [List.getLast?_singleton, Option.some.injEq] at hd
        rw [h'] at hcond
        simp [List.isEmpty] at hcond
        exact hd ▸ hcond
      | cons a b =>
        rw [h'] at hd
        rw [List.getLast?_cons_cons] at hd
        exact ih d (h' ▸ hd)

theorem dropLeadWs_nil : dropLeadWs [] = [] := rfl

theorem dropLeadWs_cons (c : Char) (t : List Char) :
    dropLeadWs (c :: t) = if isWsPy c then dropLeadWs t else c :: t := by
  simp [dropLeadWs, List.dropWhile_cons]

/-- The head of `dropLeadWs l` is never whitespace. -/
theorem dropLeadWs_head (l : List Char) :
    ∀ c, (dropLeadWs l).head? = some c → isWsPy c = false := by
  induction l with
  | nil => intro c h; simp [dropLeadWs] at h
  | cons c t ih =>
    intro d hd
    rw [dropLeadWs_cons] at hd
    by_cases hws : isWsPy c = true
    · exact ih d (by rwa [if_pos hws] at hd)
    · rw [if_neg hws] at hd
      simp only [List.head?_cons, Option.some.injEq] at hd
      subst hd
      simpa using hws

theorem dropLeadWs_eq_self (l : List Char)
    (h : ∀ c, l.head? = some c → isWsPy c = false) : dropLeadWs l = l := by
  cases l with
  | nil => rfl
  | cons c t =>
    rw [dropLeadWs_cons, if_neg]
    simp [h c rfl]

theorem pyStrip_data (s : String) :
    (pyStrip s).data = dropTrailWs (dropLeadWs s.data) := rfl

theorem pyStrip_idem (s : String) : pyStrip (pyStrip s) = pyStrip s := by
  have hhead : ∀ c, (dropTrailWs (dropLeadWs s.data)).head? = some c →
      isWsPy c = false := by
    intro c hc
    obtain ⟨suf, hsplit, _⟩ := dropTrailWs_spec (dropLeadWs s.data)
    apply dropLeadWs_head s.data
    rw [hsplit]
    cases h' : dropTrailWs (dropLeadWs s.data) with
    | nil => rw [h'] at hc; simp at hc
    | cons a b =>
      rw [h'] at hc
      simp only [List.head?_cons, Option.some.injEq] at hc
      simp [hc]
  show String.mk (dropTrailWs (dropLeadWs (pyStrip s).data)) = pyStrip s
  rw [pyStrip_data, dropLeadWs_eq_self _ hhead,
    dropTrailWs_eq_self _ (dropTrailWs_getLast (dropLeadWs s.data))]
  rfl

theorem pyStrip_eq_empty_iff (s : String) :
    pyStrip s = "" ↔ ∀ c ∈ s.data, isWsPy c = true := by
  constructor
  · intro h c hc
    have hdata : dropTrailWs (dropLeadWs s.data) = [] := by
      have := congrArg String.data h
      rw [pyStrip_data] at this
      exact this
    obtain ⟨suf, hsplit, hsuf⟩ := dropTrailWs_spec (dropLeadWs s.data)
    rw [hdata, List.nil_append] at hsplit
    have hsplit2 := List.takeWhile_append_dropWhile (p := isWsPy) (l := s.data)
    rw [← hsplit2] at hc
    rcases List.mem_append.mp hc with h1 | h1
    · exact List.mem_takeWhile_imp h1
    · exact hsuf c (by rwa [← hsplit])
  · intro h
    have : dropLeadWs s.data = [] := by
      apply List.dropWhile_eq_nil_iff.mpr
      intro x hx
      exact h x hx
    show String.mk (dropTrailWs (dropLeadWs s.data)) = ""
    rw [this]
    rfl

/-! ### Lemmas about `wordsCore` / `pySplitWs` -/

theorem wordsCore_ne_nil (l : List Char) (acc : List Char) (h : acc ≠ []) :
    wordsCore l acc ≠ [] := by
  induction l generalizing acc with
  | nil => simpa [wordsCore, List.isEmpty_iff] using h
  | cons c t ih =>
    simp only [wordsCore]
    by_cases hws : isWsPy c = true
    · simp only [hws, if_true]
      rw [if_neg (by simpa [List.isEmpty_iff] using h)]
      simp
    · rw [if_neg hws]
      exact ih (c :: acc) (by simp)

theorem wordsCore_all_ws (l : List Char) (acc : List Char)
    (h : ∀ c ∈ l, isWsPy c = true) :
    wordsCore l acc = if acc.isEmpty then [] else [acc.reverse] := by
  induction l generalizing acc with
  | nil => rfl
  | cons c t ih =>
    have hc : isWsPy c = true := h c (by simp)
    have ht : ∀ x ∈ t, isWsPy x = true := fun x hx => h x (by simp [hx])
    simp only [wordsCore, hc, if_true]
    rw [ih [] ht]
    by_cases hacc : acc.isEmpty = true
    · simp [hacc]
    · simp [hacc]

theorem wordsCore_append_ws (a : List Char) (w : Char) (b : List Char)
    (acc : List Char) (hw : isWsPy w = true) :
    wordsCore (a ++ w :: b) acc = wordsCore a acc ++ wordsCore b [] := by
  induction a generalizing acc with
  | nil =>
    simp only [List.nil_append, wordsCore, hw, if_true]
    by_cases hacc : acc.isEmpty = true
    · simp [wordsCore, hacc]
    · simp [wordsCore, hacc]
  | cons c t ih =>
    simp only [List.cons_append, wordsCore]
    by_cases hc : isWsPy c = true
    · simp only [hc, if_true]
      by_cases hacc : acc.isEmpty = true
      · simp only [hacc, if_true]
        exact ih []
      · simp only [hacc, Bool.false_eq_true, if_false, List.append_eq]
        rw [ih []]
        simp
    · simp only [hc, Bool.false_eq_true, if_false]
      exact ih (c :: acc)

theorem wordsCore_append_ws_run (e suf : List Char) (acc : List Char)
    (h : ∀ c ∈ suf, isWsPy c = true) :
    wordsCore (e ++ suf) acc = wordsCore e acc := by
  induction e generalizing acc with
  | nil =>
    simp only [List.nil_append]
    rw [wordsCore_all_ws suf acc h]
    rfl
  | cons c t ih =>
    simp only [List.cons_append, wordsCore]
    by_cases hc : isWsPy c = true
    · simp only [hc, if_true, List.append_eq]
      rw [ih []]
    · simp only [hc, Bool.false_eq_true, if_false]
      exact ih (c :: acc)

theorem wordsCore_leading_ws (pre rest : List Char)
    (h : ∀ c ∈ pre, isWsPy c = true) :
    wordsCore (pre ++ rest) [] = wordsCore rest [] := by
  induction pre with
  | nil => rfl
  | cons c t ih =>
    have hc : isWsPy c = true := h c (by simp)
    simp only [List.cons_append, wordsCore, hc, if_true, List.isEmpty_nil, if_true]
    exact ih (fun x hx => h x (by simp [hx]))

theorem wordsCore_no_ws (l : List Char) (acc : List Char)
    (h : ∀ c ∈ l, isWsPy c = false) :
    wordsCore l acc =
      if acc.reverse ++ l = [] then [] else [acc.reverse ++ l] := by
  induction l generalizing acc with
  | nil =>
    simp only [wordsCore, List.append_nil]
    by_cases hacc : acc.isEmpty = true
    · simp [List.isEmpty_iff.mp hacc]
    · have : acc ≠ [] := by simpa [List.isEmpty_iff] using hacc
      simp [hacc, List.reverse_eq_nil_iff, this]
  | cons c t ih =>
    have hc : isWsPy c = false := h c (by simp)
    simp only [wordsCore, hc, Bool.false_eq_true, if_false]
    rw [ih (c :: acc) (fun x hx => h x (by simp [hx]))]
    simp

theorem wordsCore_elem (l : List Char) (acc : List Char)
    (hacc : ∀ c ∈ acc, isWsPy c = false) :
    ∀ w ∈ wordsCore l acc, w ≠ [] ∧ ∀ c ∈ w, isWsPy c = false := by
  induction l generalizing acc with
  | nil =>
    intro w hw
    simp only [wordsCore] at hw
    by_cases h : acc.isEmpty = true
    · rw [if_pos h] at hw; simp at hw
    · rw [if_neg h] at hw
      simp only [List.mem_singleton] at hw
      subst hw
      refine ⟨by simpa [List.isEmpty_iff, List.reverse_eq_nil_iff] using h, ?_⟩
      intro c hc
      exact hacc c (List.mem_reverse.mp hc)
  | cons c t ih =>
    intro w hw
    simp only [wordsCore] at hw
    by_cases hws : isWsPy c = true
    · rw [if_pos hws] at hw
      by_cases h : acc.isEmpty = true
      · rw [if_pos h] at hw
        exact ih [] (by simp) w hw
      · rw [if_neg h] at hw
        rcases List.mem_cons.mp hw with h1 | h1
        · subst h1
          refine ⟨by simpa [List.isEmpty_iff, List.reverse_eq_nil_iff] using h, ?_⟩
          intro d hd
          exact hacc d (List.mem_reverse.mp hd)
        · exact ih [] (by simp) w h1
    · rw [if_neg hws] at hw
      refine ih (c :: acc) ?_ w hw
      intro d hd
      rcases List.mem_cons.mp hd with h1 | h1
      · subst h1; simpa using hws
      · exact hacc d h1

theorem data_append_space (a b : String) :
    (a ++ " " ++ b).data = a.data ++ ' ' :: b.data := by
  rw [String.data_append, String.data_append]
  simp

theorem pySplitWs_append_space (a b : String) :
    pySplitWs (a ++ " " ++ b) = pySplitWs a ++ pySplitWs b := by
  unfold pySplitWs
  rw [data_append_space, wordsCore_append_ws a.data ' ' b.data [] (by decide)]
  simp

theorem pySplitWs_pyJoinSp (l : List String) :
    pySplitWs (pyJoinSp l) = l.flatMap pySplitWs := by
  induction l with
  | nil => rfl
  | cons s rest ih =>
    cases rest with
    | nil => simp [pyJoinSp_singleton]
    | cons r rs =>
      rw [pyJoinSp_cons_cons, pySplitWs_append_space, ih]
      simp

theorem pySplitWs_pyStrip (s : String) : pySplitWs (pyStrip s) = pySplitWs s := by
  unfold pySplitWs
  rw [pyStrip_data]
  obtain ⟨suf, hsplit, hsuf⟩ := dropTrailWs_spec (dropLeadWs s.data)
  have h1 : wordsCore (dropTrailWs (dropLeadWs s.data)) [] =
      wordsCore (dropLeadWs s.data) [] := by
    conv_rhs => rw [hsplit]
    rw [wordsCore_append_ws_run _ suf [] hsuf]
  have h2 : wordsCore (dropLeadWs s.data) [] = wordsCore s.data [] := by
    conv_rhs =>
      rw [← List.takeWhile_append_dropWhile (p := isWsPy) (l := s.data)]
    rw [wordsCore_leading_ws _ _ (fun c hc => List.mem_takeWhile_imp hc)]
    rfl
  rw [h1, h2]

theorem pySplitWs_eq_nil_iff (s : String) :
    pySplitWs s = [] ↔ ∀ c ∈ s.data, isWsPy c = true := by
  constructor
  · intro h
    by_contra hcon
    push_neg at hcon
    obtain ⟨c, hc, hcws⟩ := hcon
    obtain ⟨pre, post, hsplit⟩ := List.append_of_mem hc
    have hind : ∀ pre2 : List Char, c ∈ pre2 ++ c :: post →
        wordsCore (pre2 ++ c :: post) [] ≠ [] := by
      intro pre2
      induction pre2 with
      | nil =>
        intro _
        simp only [List.nil_append, wordsCore]
        rw [if_neg (by simp [hcws] : ¬ isWsPy c = true)]
        exact wordsCore_ne_nil post [c] (by simp)
      | cons d t iht =>
        intro _
        simp only [List.cons_append, wordsCore]
        by_cases hd : isWsPy d = true
        · simp only [hd, if_true, List.isEmpty_nil, if_true]
          exact iht (by simp)
        · rw [if_neg hd]
          exact wordsCore_ne_nil _ [d] (by simp)
    have : pySplitWs s ≠ [] := by
      unfold pySplitWs
      rw [hsplit]
      simp only [ne_eq, List.map_eq_nil_iff]
      exact hind pre (by simp)
    exact this h
  · intro h
    unfold pySplitWs
    rw [wordsCore_all_ws s.data [] h]
    rfl

theorem pySplitWs_single (s : String) (h : ∀ c ∈ s.data, isWsPy c = false)
    (hne : s ≠ "") : pySplitWs s = [s] := by
  unfold pySplitWs
  rw [wordsCore_no_ws s.data [] h]
  have hd : s.data ≠ [] := by
    intro hcon
    apply hne
    have := congrArg String.mk hcon
    simpa using this
  simp only [List.reverse_nil, List.nil_append]
  rw [if_neg hd]
  simp

theorem pyStrip_eq_empty_iff_no_words (s : String) :
    pyStrip s = "" ↔ pySplitWs s = [] := by
  rw [pyStrip_eq_empty_iff, pySplitWs_eq_nil_iff]

theorem flatMap_eq_self_of_single (l : List String)
    (h : ∀ w ∈ l, pySplitWs w = [w]) : l.flatMap pySplitWs = l := by
  induction l with
  | nil => rfl
  | cons w t ih =>
    simp only [List.flatMap_cons, h w (by simp)]
    rw [ih (fun x hx => h x (by simp [hx]))]
    rfl

theorem flatMap_pySplitWs_pySplitWs (s : String) :
    (pySplitWs s).flatMap pySplitWs = pySplitWs s := by
  apply flatMap_eq_self_of_single
  intro w hw
  obtain ⟨wl, hmem, hwl⟩ := List.mem_map.mp hw
  obtain ⟨hne, hchars⟩ := wordsCore_elem s.data [] (by simp) wl hmem
  apply pySplitWs_single
  · intro c hc
    apply hchars
    rw [← hwl] at hc
    simpa using hc
  · intro hcon
    apply hne
    rw [← hwl] at hcon
    have := congrArg String.data hcon
    simpa using this

theorem mem_data_pyJoinSp (l : List String) (w : String) (hw : w ∈ l)
    (c : Char) (hc : c ∈ w.data) : c ∈ (pyJoinSp l).data := by
  induction l with
  | nil => simp at hw
  | cons s rest ih =>
    cases rest with
    | nil =>
      rw [List.mem_singleton] at hw
      subst hw
      simpa [pyJoinSp_singleton] using hc
    | cons r rs =>
      rw [pyJoinSp_cons_cons, data_append_space]
      rcases List.mem_cons.mp hw with h1 | h1
      · subst h1
        simp [hc]
      · simp [ih h1]

theorem pyStrip_pyJoinSp_ne_empty (l : List String) (w : String) (hw : w ∈ l)
    (hne : pyStrip w ≠ "") : pyStrip (pyJoinSp l) ≠ "" := by
  intro hcon
  apply hne
  rw [pyStrip_eq_empty_iff] at hcon ⊢
  intro c hc
  exact hcon c (mem_data_pyJoinSp l w hw c hc)

/-! ## Properties of the concrete character tokenizer -/

theorem numTokens_charTok (s : String) : numTokens charTok s = s.data.length := by
  simp [numTokens, charTok]

theorem charTok_encode_empty : charTok.encode "" = [] := rfl

theorem length_dropLeadWs_le (l : List Char) :
    (dropLeadWs l).length ≤ l.length := by
  unfold dropLeadWs
  conv_rhs => rw [← List.takeWhile_append_dropWhile (p := isWsPy) (l := l)]
  rw [List.length_append]
  omega

theorem length_dropTrailWs_le (l : List Char) :
    (dropTrailWs l).length ≤ l.length := by
  obtain ⟨suf, hsplit, _⟩ := dropTrailWs_spec l
  conv_rhs => rw [hsplit]
  rw [List.length_append]
  omega

theorem charTok_strip_le (s : String) :
    numTokens charTok (pyStrip s) ≤ numTokens charTok s := by
  rw [numTokens_charTok, numTokens_charTok, pyStrip_data]
  calc (dropTrailWs (dropLeadWs s.data)).length
      ≤ (dropLeadWs s.data).length := length_dropTrailWs_le _
    _ ≤ s.data.length := length_dropLeadWs_le _

theorem charTok_decode_length (ids : List Nat) :
    numTokens charTok (charTok.decode ids) = ids.length := by
  simp [numTokens, charTok]

theorem charTok_join_le (a b : String) :
    numTokens charTok (a ++ " " ++ b) ≤
      numTokens charTok a + numTokens charTok b + 1 := by
  rw [numTokens_charTok, numTokens_charTok, numTokens_charTok, data_append_space]
  simp
  omega

theorem pySliceFromNeg_length_le (l : List Nat) (k : Nat) (hk : 0 < k) :
    (pySliceFromNeg l k).length ≤ k := by
  unfold pySliceFromNeg
  rw [if_neg (by omega)]
  rw [List.length_drop]
  omega

/-! ## A generic invariant principle for `List.foldl` -/

theorem foldl_induction {α : Type} {β : Type} (f : α → β → α) (l : List β)
    (st : α) (P : α → Prop) (h0 : P st)
    (hstep : ∀ a b, b ∈ l → P a → P (f a b)) : P (l.foldl f st) := by
  induction l generalizing st with
  | nil => exact h0
  | cons x xs ih =>
    exact ih (f st x) (hstep st x (by simp) h0)
      (fun a b hb => hstep a b (by simp [hb]))

/-! ## Grouping specification of the long-sentence word loop -/

theorem splitWordsFold_go (tok : Tok) (limit : Nat) (ws : List String) :
    ∀ (wc cw : List String) (groups : List (List String)),
      wc = groups.map pyJoinSp →
      (∀ g ∈ groups, g ≠ [] ∧ (2 ≤ g.length → numTokens tok (pyJoinSp g) ≤ limit)) →
      (2 ≤ cw.length → numTokens tok (pyJoinSp cw) ≤ limit) →
      ∃ groups2 : List (List String),
        (ws.foldl (splitWordsStep tok limit) (wc, cw)).1 = groups2.map pyJoinSp ∧
        groups2.flatten ++ (ws.foldl (splitWordsStep tok limit) (wc, cw)).2 =
          groups.flatten ++ cw ++ ws ∧
        (∀ g ∈ groups2, g ≠ [] ∧
          (2 ≤ g.length → numTokens tok (pyJoinSp g) ≤ limit)) ∧
        (2 ≤ (ws.foldl (splitWordsStep tok limit) (wc, cw)).2.length →
          numTokens tok
            (pyJoinSp (ws.foldl (splitWordsStep tok limit) (wc, cw)).2) ≤ limit) ∧
        ((cw ≠ [] ∨ ws ≠ []) →
          (ws.foldl (splitWordsStep tok limit) (wc, cw)).2 ≠ []) := by
  induction ws with
  | nil =>
    intro wc cw groups hwc hgroups hcw
    refine ⟨groups, hwc, by simp, hgroups, hcw, ?_⟩
    intro h
    rcases h with h | h
    · exact h
    · exact absurd rfl h
  | cons w ws' ih =>
    intro wc cw groups hwc hgroups hcw
    rw [List.foldl_cons]
    by_cases hcond : limit < numTokens tok (pyJoinSp (cw ++ [w])) ∧ cw ≠ []
    · have hstep : splitWordsStep tok limit (wc, cw) w =
          (wc ++ [pyJoinSp cw], [w]) := by
        unfold splitWordsStep
        rw [if_pos hcond]
      rw [hstep]
      obtain ⟨groups2, h1, h2, h3, h4, h5⟩ := ih (wc ++ [pyJoinSp cw]) [w]
        (groups ++ [cw])
        (by rw [hwc]; simp)
        (by
          intro g hg
          rcases List.mem_append.mp hg with h | h
          · exact hgroups g h
          · rw [List.mem_singleton] at h
            subst h
            exact ⟨hcond.2, hcw⟩)
        (by intro h; simp at h)
      refine ⟨groups2, h1, ?_, h3, h4, ?_⟩
      · rw [h2]
        simp
      · intro _
        exact h5 (Or.inl (by simp))
    · have hstep : splitWordsStep tok limit (wc, cw) w = (wc, cw ++ [w]) := by
        unfold splitWordsStep
        rw [if_neg hcond]
      rw [hstep]
      obtain ⟨groups2, h1, h2, h3, h4, h5⟩ := ih wc (cw ++ [w]) groups hwc hgroups
        (by
          intro hlen
          rcases not_and_or.mp hcond with h | h
          · exact Nat.not_lt.mp h
          · rw [not_not] at h
            subst h
            simp at hlen)
      refine ⟨groups2, h1, ?_, h3, h4, ?_⟩
      · rw [h2]
        simp
      · intro _
        exact h5 (Or.inl (by simp))

theorem splitWordsFold_spec (tok : Tok) (limit : Nat) (ws : List String) :
    ∃ groups : List (List String),
      (splitWordsFold tok limit ws).1 = groups.map pyJoinSp ∧
      groups.flatten ++ (splitWordsFold tok limit ws).2 = ws ∧
      (∀ g ∈ groups, g ≠ [] ∧
        (2 ≤ g.length → numTokens tok (pyJoinSp g) ≤ limit)) ∧
      (2 ≤ (splitWordsFold tok limit ws).2.length →
        numTokens tok (pyJoinSp (splitWordsFold tok limit ws).2) ≤ limit) ∧
      (ws ≠ [] → (splitWordsFold tok limit ws).2 ≠ []) := by
  unfold splitWordsFold
  obtain ⟨groups2, h1, h2, h3, h4, h5⟩ := splitWordsFold_go tok limit ws [] [] []
    rfl (by simp) (by intro h; simp at h)
  refine ⟨groups2, h1, ?_, h3, h4, ?_⟩
  · rw [h2]; simp
  · intro h
    exact h5 (Or.inr h)

theorem splitLongSentence_spec (tok : Tok) (limit : Nat)
    (wordTok : String → List String) (s : String)
    (h2 : 2 ≤ (wordTok s).length) :
    ∃ groups : List (List String),
      splitLongSentence tok limit wordTok s = groups.map pyJoinSp ∧
      groups.flatten = wordTok s ∧
      ∀ g ∈ groups, g ≠ [] ∧
        (2 ≤ g.length → numTokens tok (pyJoinSp g) ≤ limit) := by
  obtain ⟨groups, h1, hflat, hprops, hbound, hne⟩ :=
    splitWordsFold_spec tok limit (wordTok s)
  have hwsne : wordTok s ≠ [] := by
    intro hc
    rw [hc] at h2
    simp at h2
  have hcw : (splitWordsFold tok limit (wordTok s)).2 ≠ [] := hne hwsne
  refine ⟨groups ++ [(splitWordsFold tok limit (wordTok s)).2], ?_, ?_, ?_⟩
  · unfold splitLongSentence
    rw [if_neg (by omega : ¬ (wordTok s).length ≤ 1)]
    simp only [ne_eq, hcw, not_false_eq_true, if_true, reduceIte]
    rw [if_pos (by simp)]
    rw [h1]
    simp
  · rw [List.flatten_append]
    simp only [List.flatten_cons, List.flatten_nil, List.append_nil]
    exact hflat
  · intro g hg
    rcases List.mem_append.mp hg with h | h
    · exact hprops g h
    · rw [List.mem_singleton] at h
      subst h
      exact ⟨hcw, hbound⟩

/-! ## Branch lemmas for the assembler -/

theorem addToChunks_no_overflow (tok : Tok) (limit overlap : Nat)
    (sentence : String) (st : List String × List String)
    (h : ¬ limit < numTokens tok (pyJoinSp (st.2 ++ [sentence]))) :
    addToChunks tok limit overlap sentence st = (st.1, st.2 ++ [sentence]) := by
  unfold addToChunks
  rw [if_neg h]

theorem addToChunks_overflow (tok : Tok) (limit overlap : Nat)
    (sentence : String) (st : List String × List String)
    (h : limit < numTokens tok (pyJoinSp (st.2 ++ [sentence]))) :
    addToChunks tok limit overlap sentence st =
      (st.1 ++ [pyJoinSp st.2],
       [pyStrip (tok.decode (pySliceFromNeg (tok.encode (pyJoinSp st.2)) overlap)),
        sentence]) := by
  unfold addToChunks
  rw [if_pos h]

theorem processSub_skip (tok : Tok) (limit overlap : Nat)
    (st : List String × List String) (sub : String) (h : pyStrip sub = "") :
    processSub tok limit overlap st sub = st := by
  unfold processSub
  rw [if_pos h]

theorem processSub_merge (tok : Tok) (limit overlap : Nat)
    (st : List String × List String) (sub : String) (h1 : pyStrip sub ≠ "")
    (h2 : numTokens tok sub ≤ limit) :
    processSub tok limit overlap st sub =
      addToChunks tok limit overlap (pyStrip sub) st := by
  unfold processSub
  rw [if_neg h1, if_pos h2]

theorem processSub_standalone (tok : Tok) (limit overlap : Nat)
    (st : List String × List String) (sub : String) (h1 : pyStrip sub ≠ "")
    (h2 : ¬ numTokens tok sub ≤ limit) :
    processSub tok limit overlap st sub =
      ((if st.2 ≠ [] then st.1 ++ [pyJoinSp st.2] else st.1) ++ [pyStrip sub],
        []) := by
  unfold processSub
  rw [if_neg h1, if_neg h2]

theorem processSentence_skip (tok : Tok) (limit overlap : Nat)
    (wordTok : String → List String) (st : List String × List String)
    (raw : String) (h : pyStrip raw = "") :
    processSentence tok limit overlap wordTok st raw = st := by
  unfold processSentence
  rw [if_pos h]

theorem processSentence_merge (tok : Tok) (limit overlap : Nat)
    (wordTok : String → List String) (st : List String × List String)
    (raw : String) (h1 : pyStrip raw ≠ "")
    (h2 : ¬ limit + limit / 10 < numTokens tok (pyStrip raw)) :
    processSentence tok limit overlap wordTok st raw =
      addToChunks tok limit overlap (pyStrip raw) st := by
  unfold processSentence
  rw [if_neg h1, if_neg h2]

theorem processSentence_long (tok : Tok) (limit overlap : Nat)
    (wordTok : String → List String) (st : List String × List String)
    (raw : String) (h1 : pyStrip raw ≠ "")
    (h2 : limit + limit / 10 < numTokens tok (pyStrip raw)) :
    processSentence tok limit overlap wordTok st raw =
      (splitLongSentence tok limit wordTok (pyStrip raw)).foldl
        (processSub tok limit overlap) st := by
  unfold processSentence
  rw [if_neg h1, if_pos h2]

theorem splitText_eq (tok : Tok) (limit overlap : Nat)
    (sentTok wordTok : String → List String) (text : String) :
    splitText tok limit overlap sentTok wordTok text =
      (if ((sentTok (clean_text_advanced text)).foldl
            (processSentence tok limit overlap wordTok) ([], [])).2 ≠ [] then
        ((sentTok (clean_text_advanced text)).foldl
            (processSentence tok limit overlap wordTok) ([], [])).1 ++
          [pyJoinSp ((sentTok (clean_text_advanced text)).foldl
            (processSentence tok limit overlap wordTok) ([], [])).2]
      else
        ((sentTok (clean_text_advanced text)).foldl
            (processSentence tok limit overlap wordTok) ([], [])).1) := rfl

/-! ## Claim C9 -/

/-- C9: calling the token-count operation (`num_tokens`) or constructing the
chunker (`SmartChunker.__init__`) before the one-time engine setup fails with
the explicit "uninitialized" error, propagated to the caller; it never
silently returns a token count (in particular not zero) or a chunk engine. -/
theorem num_tokens_and_chunker_uninitialized (text : String) (l o : Nat) :
    num_tokens .uninit text = .error .uninitialized ∧
    SmartChunker.create .uninit l o = .error .uninitialized ∧
    (∀ n : Nat, num_tokens .uninit text ≠ .ok n) ∧
    (∀ ck : SmartChunker, SmartChunker.create .uninit l o ≠ .ok ck) := by
  refine ⟨rfl, rfl, ?_, ?_⟩ <;> intro x h <;>
    simp [num_tokens, SmartChunker.create] at h

/-! ## Claim C2 -/

/-- C2: evaluation of the merge step at the failing input `overlap = 0`.
The code takes `tokens[-0:]`, which in Python is the whole token list, so
the overlap seed re-seeding the next chunk is the decode of ALL token ids of
the just-flushed chunk (the entire chunk text, 8 tokens here, not the empty
string), and it is appended unconditionally — no empty-seed filtering exists
on this path.  The claim (seed = last `overlap` = 0 tokens, filtered when
empty) describes the commented intent, not the code. -/
theorem addToChunks_overlap_zero_reseeds_whole_chunk :
    addToChunks charTok 10 0 "ABCDEFGH" ([], ["abcdefgh"]) =
      (["abcdefgh"], ["abcdefgh", "ABCDEFGH"]) ∧
    pySliceFromNeg (charTok.encode "abcdefgh") 0 = charTok.encode "abcdefgh" ∧
    numTokens charTok (pyJoinSp ["abcdefgh", "ABCDEFGH"]) = 17 := by
  exact ⟨rfl, rfl, rfl⟩

/-! ## Claim C6 -/

/-- C6 (amended): the chunking entry point fails with the validation error
exactly when the input text is empty or whitespace-only; in that case no
chunk list is produced.  A non-positive `chunk_token_limit` is NOT rejected
(neither the request model nor the chunker validates it). -/
theorem chunkText_invalid_iff (st : EngineState)
    (sentTok wordTok : String → List String) (req : ChunkRequest) :
    chunkText st sentTok wordTok req = .error .invalidInput ↔
      pyStrip req.text = "" := by
  unfold chunkText
  by_cases hstrip : pyStrip req.text = ""
  · rw [if_pos (by simp [hstrip])]
    simp [hstrip]
  · have htext : ¬ req.text = "" := by
      intro hc
      apply hstrip
      rw [hc]
      rfl
    rw [if_neg (by simp [htext, hstrip])]
    constructor
    · intro h
      cases st with
      | uninit => simp at h
      | ready tok => simp at h
    · intro h
      exact absurd h hstrip

/-- C6, counterexample to the claim as stated: a call with non-positive
`chunk_token_limit = 0` and non-empty text is NOT rejected — the entry point
returns a chunk list instead of the claimed `InvalidInput` error. -/
theorem chunkText_accepts_nonpositive_limit :
    chunkText (.ready charTok) simple_sentence_split pySplitWs ⟨"hi", 0, 0⟩ =
      .ok ["hi"] ∧
    chunkText (.ready charTok) simple_sentence_split pySplitWs ⟨"hi", 0, 0⟩ ≠
      .error .invalidInput := by
  constructor
  · rfl
  · intro h
    simp only [show chunkText (.ready charTok) simple_sentence_split pySplitWs
        ⟨"hi", 0, 0⟩ = .ok ["hi"] from rfl] at h
    exact Except.noConfusion h

/-! ## Claim C10 -/

/-- C10: for every sentence whose word segmentation yields at least two
words, every fragment returned by `_split_long_sentence` that itself contains
at least two words has token count at most the chunk limit; only a
single-word fragment can exceed it, because a word is appended to a
non-empty group only after the joined group-plus-word passes the token-limit
test. -/
theorem splitLongSentence_multiword_fragment_bound (tok : Tok) (limit : Nat)
    (wordTok : String → List String) (s : String)
    (h2 : 2 ≤ (wordTok s).length)
    (hw : ∀ w ∈ wordTok s, pySplitWs w = [w]) :
    ∀ frag ∈ splitLongSentence tok limit wordTok s,
      2 ≤ (pySplitWs frag).length → numTokens tok frag ≤ limit := by
  obtain ⟨groups, heq, hflat, hprops⟩ := splitLongSentence_spec tok limit wordTok s h2
  intro frag hfrag hlen
  rw [heq] at hfrag
  obtain ⟨g, hg, hfragEq⟩ := List.mem_map.mp hfrag
  obtain ⟨hgne, hgbound⟩ := hprops g hg
  have hwords : pySplitWs frag = g := by
    rw [← hfragEq, pySplitWs_pyJoinSp]
    apply flatMap_eq_self_of_single
    intro w hwmem
    apply hw
    rw [← hflat]
    exact List.mem_flatten.mpr ⟨g, hg, hwmem⟩
  rw [← hfragEq]
  apply hgbound
  rw [hwords] at hlen
  exact hlen

/-- C10, witness: the theorem applied to the concrete sentence
"aa bb cc dd" with the character tokenizer, limit 5 and the whitespace word
segmenter; the two-word fragment "aa bb" of the result obeys the limit. -/
theorem splitLongSentence_multiword_fragment_bound_witness :
    numTokens charTok "aa bb" ≤ 5 :=
  splitLongSentence_multiword_fragment_bound charTok 5 pySplitWs "aa bb cc dd"
    (by decide) (by decide) "aa bb" (by decide) (by decide)

/-! ## Claim C8 -/

/-- C8: long-sentence splitting is triggered exactly when the stripped
sentence's token count exceeds `limit + floor(limit * 0.1)`.  At the
boundaries: a single sentence whose token count equals exactly `limit` is
never word-split — the split returns it verbatim as the sole chunk,
independently of the word segmenter; a sentence whose token count equals
exactly `limit + floor(limit * 0.1) + 1` is decomposed via the word-level
path (`_split_long_sentence`) and the output is the sub-fragment loop's
result. -/
theorem splitText_threshold_boundary (tok : Tok) (limit overlap : Nat)
    (sentTok wordTok : String → List String) (text s : String)
    (hsent : sentTok (clean_text_advanced text) = [s])
    (hstrip : pyStrip s = s) (hne : s ≠ "") :
    (numTokens tok s = limit →
      splitText tok limit overlap sentTok wordTok text = [s]) ∧
    (numTokens tok s = limit + limit / 10 + 1 →
      splitText tok limit overlap sentTok wordTok text =
        (if ((splitLongSentence tok limit wordTok s).foldl
              (processSub tok limit overlap) ([], [])).2 ≠ [] then
          ((splitLongSentence tok limit wordTok s).foldl
              (processSub tok limit overlap) ([], [])).1 ++
            [pyJoinSp ((splitLongSentence tok limit wordTok s).foldl
              (processSub tok limit overlap) ([], [])).2]
        else
          ((splitLongSentence tok limit wordTok s).foldl
              (processSub tok limit overlap) ([], [])).1)) := by
  constructor
  · intro htok
    rw [splitText_eq, hsent, List.foldl_cons, List.foldl_nil]
    rw [processSentence_merge tok limit overlap wordTok ([], []) s
      (by rw [hstrip]; exact hne)
      (by rw [hstrip, htok]; omega)]
    rw [hstrip]
    rw [addToChunks_no_overflow tok limit overlap s ([], [])
      (by
        show ¬ limit < numTokens tok (pyJoinSp ([] ++ [s]))
        rw [List.nil_append, pyJoinSp_singleton, htok]
        omega)]
    simp [pyJoinSp_singleton]
  · intro htok
    rw [splitText_eq, hsent, List.foldl_cons, List.foldl_nil]
    rw [processSentence_long tok limit overlap wordTok ([], []) s
      (by rw [hstrip]; exact hne)
      (by rw [hstrip, htok]; omega)]
    rw [hstrip]

/-- C8, witness: both boundary cases of the theorem evaluated with the
character tokenizer and the repository's fallback segmenters.  With limit 5,
the 5-token sentence "abcde" is returned verbatim as the single chunk; with
limit 10 (threshold 11), the 12-token sentence "abcdefghijkl" goes through
the word-level path, which emits it standalone. -/
theorem splitText_threshold_boundary_witness :
    splitText charTok 5 2 simple_sentence_split pySplitWs "abcde" = ["abcde"] ∧
    splitText charTok 10 2 simple_sentence_split pySplitWs "abcdefghijkl" =
      ["abcdefghijkl"] := by
  constructor
  · exact (splitText_threshold_boundary charTok 5 2 simple_sentence_split
      pySplitWs "abcde" "abcde" (by decide) (by decide) (by decide)).1
      (by decide)
  · rw [(splitText_threshold_boundary charTok 10 2 simple_sentence_split
      pySplitWs "abcdefghijkl" "abcdefghijkl" (by decide) (by decide)
      (by decide)).2 (by decide)]
    decide

/-! ## Claim C3 -/

theorem pyJoinSp_ne_empty (l : List String) (x : String) (hx : x ∈ l)
    (hne : x ≠ "") : pyJoinSp l ≠ "" := by
  cases l with
  | nil => simp at hx
  | cons s rest =>
    cases rest with
    | nil =>
      rw [List.mem_singleton] at hx
      subst hx
      simpa [pyJoinSp_singleton] using hne
    | cons r rs =>
      rw [pyJoinSp_cons_cons]
      intro hcon
      have := congrArg String.data hcon
      rw [data_append_space] at this
      simp at this

/-- The state-invariant of C3: chunks never hold the empty string, and the
buffer, when non-empty, holds at least one non-empty element. -/
def NonemptyInv (st : List String × List String) : Prop :=
  (∀ c ∈ st.1, c ≠ "") ∧ (st.2 ≠ [] → ∃ x ∈ st.2, x ≠ "")

theorem addToChunks_preserves_nonempty (tok : Tok) (limit overlap : Nat)
    (u : String) (st : List String × List String)
    (hu : u ≠ "") (hle : numTokens tok u ≤ limit)
    (hP : NonemptyInv st) : NonemptyInv (addToChunks tok limit overlap u st) := by
  obtain ⟨h1, h2⟩ := hP
  by_cases hov : limit < numTokens tok (pyJoinSp (st.2 ++ [u]))
  · have hne : st.2 ≠ [] := by
      intro hc
      rw [hc, List.nil_append, pyJoinSp_singleton] at hov
      omega
    rw [addToChunks_overflow tok limit overlap u st hov]
    constructor
    · intro c hc
      rcases List.mem_append.mp hc with h | h
      · exact h1 c h
      · rw [List.mem_singleton] at h
        subst h
        obtain ⟨x, hx, hxne⟩ := h2 hne
        exact pyJoinSp_ne_empty st.2 x hx hxne
    · intro _
      exact ⟨u, by simp, hu⟩
  · rw [addToChunks_no_overflow tok limit overlap u st hov]
    exact ⟨h1, fun _ => ⟨u, by simp, hu⟩⟩

theorem processSub_preserves_nonempty (tok : Tok) (limit overlap : Nat)
    (htrim : ∀ s : String, numTokens tok (pyStrip s) ≤ numTokens tok s)
    (st : List String × List String) (sub : String)
    (hP : NonemptyInv st) : NonemptyInv (processSub tok limit overlap st sub) := by
  obtain ⟨h1, h2⟩ := hP
  by_cases hskip : pyStrip sub = ""
  · rw [processSub_skip _ _ _ _ _ hskip]
    exact ⟨h1, h2⟩
  by_cases hsmall : numTokens tok sub ≤ limit
  · rw [processSub_merge _ _ _ _ _ hskip hsmall]
    exact addToChunks_preserves_nonempty tok limit overlap (pyStrip sub) st hskip
      (le_trans (htrim sub) hsmall) ⟨h1, h2⟩
  · rw [processSub_standalone _ _ _ _ _ hskip hsmall]
    constructor
    · intro c hc
      rcases List.mem_append.mp hc with h | h
      · by_cases hcur : st.2 ≠ []
        · rw [if_pos hcur] at h
          rcases List.mem_append.mp h with h' | h'
          · exact h1 c h'
          · rw [List.mem_singleton] at h'
            subst h'
            obtain ⟨x, hx, hxne⟩ := h2 hcur
            exact pyJoinSp_ne_empty st.2 x hx hxne
        · rw [if_neg hcur] at h
          exact h1 c h
      · rw [List.mem_singleton] at h
        subst h
        exact hskip
    · intro hc
      exact absurd rfl hc

theorem processSentence_preserves_nonempty (tok : Tok) (limit overlap : Nat)
    (wordTok : String → List String)
    (htrim : ∀ s : String, numTokens tok (pyStrip s) ≤ numTokens tok s)
    (raw : String)
    (hbandraw : numTokens tok (pyStrip raw) ≤ limit ∨
      limit + limit / 10 < numTokens tok (pyStrip raw))
    (st : List String × List String) (hP : NonemptyInv st) :
    NonemptyInv (processSentence tok limit overlap wordTok st raw) := by
  by_cases hskip : pyStrip raw = ""
  · rw [processSentence_skip _ _ _ _ _ _ hskip]
    exact hP
  by_cases hlong : limit + limit / 10 < numTokens tok (pyStrip raw)
  · rw [processSentence_long _ _ _ _ _ _ hskip hlong]
    exact foldl_induction (processSub tok limit overlap) _ st NonemptyInv hP
      (fun a b _ hPa => processSub_preserves_nonempty tok limit overlap htrim a b hPa)
  · rw [processSentence_merge _ _ _ _ _ _ hskip hlong]
    have hle : numTokens tok (pyStrip raw) ≤ limit := by
      rcases hbandraw with h | h
      · exact h
      · exact absurd h hlong
    exact addToChunks_preserves_nonempty tok limit overlap (pyStrip raw) st hskip
      hle hP

/-- C3 (amended): every chunk returned by the split is a non-empty string,
provided no sentence token count lies strictly between `limit` and the
10%-slack threshold `limit + floor(limit * 0.1)` — for a sentence in that
band arriving at an empty buffer, the code flushes `" ".join([])` and emits
an empty chunk (see the counterexample) — and provided stripping a string
does not increase its token count. -/
theorem splitText_chunks_nonempty (tok : Tok) (limit overlap : Nat)
    (sentTok wordTok : String → List String) (text : String)
    (hband : ∀ s ∈ sentTok (clean_text_advanced text),
      numTokens tok (pyStrip s) ≤ limit ∨
      limit + limit / 10 < numTokens tok (pyStrip s))
    (htrim : ∀ s : String, numTokens tok (pyStrip s) ≤ numTokens tok s) :
    ∀ c ∈ splitText tok limit overlap sentTok wordTok text, c ≠ "" := by
  intro c hc
  rw [splitText_eq] at hc
  have hfold : NonemptyInv ((sentTok (clean_text_advanced text)).foldl
      (processSentence tok limit overlap wordTok) ([], [])) := by
    apply foldl_induction (processSentence tok limit overlap wordTok) _ ([], [])
      NonemptyInv
    · exact ⟨by simp, by simp⟩
    · intro a b hb hPa
      exact processSentence_preserves_nonempty tok limit overlap wordTok htrim b
        (hband b hb) a hPa
  by_cases hcur : ((sentTok (clean_text_advanced text)).foldl
      (processSentence tok limit overlap wordTok) ([], [])).2 ≠ []
  · rw [if_pos hcur] at hc
    rcases List.mem_append.mp hc with h | h
    · exact hfold.1 c h
    · rw [List.mem_singleton] at h
      subst h
      obtain ⟨x, hx, hxne⟩ := hfold.2 hcur
      exact pyJoinSp_ne_empty _ x hx hxne
  · rw [if_neg hcur] at hc
    exact hfold.1 c hc

/-- C3, witness: the theorem applied to the two-sentence text "ab cd. ef"
with the character tokenizer, limit 10, overlap 5; the single resulting
chunk "ab cd ef" is non-empty. -/
theorem splitText_chunks_nonempty_witness : "ab cd ef" ≠ "" :=
  splitText_chunks_nonempty charTok 10 5 simple_sentence_split pySplitWs
    "ab cd. ef" (by decide) charTok_strip_le "ab cd ef" (by decide)

/-- C3, counterexample to the claim as stated: for the valid input
"abcdefghijk" (non-empty after trimming, limit 10 > 0), the first sentence
has 11 tokens — above `limit` but within the 10% band — and overflows the
still-empty buffer, so the split emits the empty string as its first chunk. -/
theorem splitText_emits_empty_chunk :
    pyStrip "abcdefghijk" ≠ "" ∧
    splitText charTok 10 5 simple_sentence_split pySplitWs "abcdefghijk" =
      ["", " abcdefghijk"] ∧
    "" ∈ splitText charTok 10 5 simple_sentence_split pySplitWs "abcdefghijk" := by
  exact ⟨by decide, by decide, by decide⟩

/-! ## Claim C4 -/

theorem foldl_establish {α : Type} {β : Type} (f : α → β → α) (l : List β)
    (st : α) (P : α → Prop) (b : β) (hb : b ∈ l)
    (hest : ∀ a, P (f a b))
    (hpres : ∀ a x, x ∈ l → P a → P (f a x)) : P (l.foldl f st) := by
  induction l generalizing st with
  | nil => simp at hb
  | cons x xs ih =>
    rcases List.mem_cons.mp hb with h | h
    · subst h
      rw [List.foldl_cons]
      exact foldl_induction f xs (f st b) P (hest st)
        (fun a y hy => hpres a y (by simp [hy]))
    · rw [List.foldl_cons]
      exact ih (f st x) h (fun a y hy => hpres a y (by simp [hy]))

theorem addToChunks_snd_ne_nil (tok : Tok) (limit overlap : Nat) (u : String)
    (st : List String × List String) :
    (addToChunks tok limit overlap u st).2 ≠ [] := by
  by_cases hov : limit < numTokens tok (pyJoinSp (st.2 ++ [u]))
  · rw [addToChunks_overflow _ _ _ _ _ hov]
    simp
  · rw [addToChunks_no_overflow _ _ _ _ _ hov]
    simp

/-- C4's state-invariant: the accumulated state already guarantees a
non-empty final output (a chunk has been flushed or the buffer is
non-empty). -/
def SomeProgress (st : List String × List String) : Prop :=
  st.1 ≠ [] ∨ st.2 ≠ []

theorem processSub_establishes_progress (tok : Tok) (limit overlap : Nat)
    (st : List String × List String) (sub : String) (hne : pyStrip sub ≠ "") :
    SomeProgress (processSub tok limit overlap st sub) := by
  by_cases hsmall : numTokens tok sub ≤ limit
  · rw [processSub_merge _ _ _ _ _ hne hsmall]
    exact Or.inr (addToChunks_snd_ne_nil _ _ _ _ _)
  · rw [processSub_standalone _ _ _ _ _ hne hsmall]
    exact Or.inl (by simp)

theorem processSub_preserves_progress (tok : Tok) (limit overlap : Nat)
    (st : List String × List String) (sub : String) (h : SomeProgress st) :
    SomeProgress (processSub tok limit overlap st sub) := by
  by_cases hskip : pyStrip sub = ""
  · rw [processSub_skip _ _ _ _ _ hskip]
    exact h
  · exact processSub_establishes_progress tok limit overlap st sub hskip

theorem splitLongSentence_exists_nonempty_frag (tok : Tok) (limit : Nat)
    (wordTok : String → List String) (s : String)
    (hs : pyStrip s = s) (hne : s ≠ "")
    (hW : ∀ w ∈ wordTok s, pyStrip w ≠ "") :
    ∃ frag ∈ splitLongSentence tok limit wordTok s, pyStrip frag ≠ "" := by
  by_cases hlen : (wordTok s).length ≤ 1
  · refine ⟨s, ?_, by rw [hs]; exact hne⟩
    unfold splitLongSentence
    rw [if_pos hlen]
    simp
  · have h2 : 2 ≤ (wordTok s).length := by omega
    obtain ⟨groups, heq, hflat, _⟩ := splitLongSentence_spec tok limit wordTok s h2
    have hwne : wordTok s ≠ [] := by
      intro hc
      rw [hc] at h2
      simp at h2
    obtain ⟨w, hw⟩ := List.exists_mem_of_ne_nil (wordTok s) hwne
    have hw2 : w ∈ groups.flatten := by rw [hflat]; exact hw
    obtain ⟨g, hg, hwg⟩ := List.mem_flatten.mp hw2
    refine ⟨pyJoinSp g, ?_, ?_⟩
    · rw [heq]
      exact List.mem_map.mpr ⟨g, hg, rfl⟩
    · exact pyStrip_pyJoinSp_ne_empty g w hwg (hW w hw)

theorem processSentence_establishes_progress (tok : Tok) (limit overlap : Nat)
    (wordTok : String → List String) (raw : String)
    (hne : pyStrip raw ≠ "")
    (hWraw : ∀ w ∈ wordTok (pyStrip raw), pyStrip w ≠ "") :
    ∀ st, SomeProgress (processSentence tok limit overlap wordTok st raw) := by
  intro st
  by_cases hlong : limit + limit / 10 < numTokens tok (pyStrip raw)
  · rw [processSentence_long _ _ _ _ _ _ hne hlong]
    obtain ⟨frag, hfrag, hfragne⟩ := splitLongSentence_exists_nonempty_frag tok
      limit wordTok (pyStrip raw) (pyStrip_idem raw) hne hWraw
    exact foldl_establish (processSub tok limit overlap) _ st SomeProgress frag
      hfrag
      (fun a => processSub_establishes_progress tok limit overlap a frag hfragne)
      (fun a x _ hPa => processSub_preserves_progress tok limit overlap a x hPa)
  · rw [processSentence_merge _ _ _ _ _ _ hne hlong]
    exact Or.inr (addToChunks_snd_ne_nil _ _ _ _ _)

theorem processSentence_preserves_progress (tok : Tok) (limit overlap : Nat)
    (wordTok : String → List String) (raw : String)
    (st : List String × List String) (h : SomeProgress st) :
    SomeProgress (processSentence tok limit overlap wordTok st raw) := by
  by_cases hskip : pyStrip raw = ""
  · rw [processSentence_skip _ _ _ _ _ _ hskip]
    exact h
  by_cases hlong : limit + limit / 10 < numTokens tok (pyStrip raw)
  · rw [processSentence_long _ _ _ _ _ _ hskip hlong]
    exact foldl_induction (processSub tok limit overlap) _ st SomeProgress h
      (fun a x _ hPa => processSub_preserves_progress tok limit overlap a x hPa)
  · rw [processSentence_merge _ _ _ _ _ _ hskip hlong]
    exact Or.inr (addToChunks_snd_ne_nil _ _ _ _ _)

/-- C4 (amended): the split returns a non-empty chunk sequence whenever the
segmented, normalized text still contains at least one sentence that is
non-empty after stripping (with word-segmenter tokens non-empty after
stripping, as NLTK's and the fallback's are).  When normalization removes
all content the sentence list is empty and the split returns the empty list
— see the counterexample. -/
theorem splitText_nonempty_of_nonempty_sentence (tok : Tok)
    (limit overlap : Nat) (sentTok wordTok : String → List String)
    (text : String)
    (hex : ∃ s ∈ sentTok (clean_text_advanced text), pyStrip s ≠ "")
    (hW : ∀ s ∈ sentTok (clean_text_advanced text),
      ∀ w ∈ wordTok (pyStrip s), pyStrip w ≠ "") :
    splitText tok limit overlap sentTok wordTok text ≠ [] := by
  obtain ⟨s0, hs0, hs0ne⟩ := hex
  have hfold : SomeProgress ((sentTok (clean_text_advanced text)).foldl
      (processSentence tok limit overlap wordTok) ([], [])) := by
    apply foldl_establish (processSentence tok limit overlap wordTok) _ ([], [])
      SomeProgress s0 hs0
    · intro a
      exact processSentence_establishes_progress tok limit overlap wordTok s0
        hs0ne (hW s0 hs0) a
    · intro a x _ hPa
      exact processSentence_preserves_progress tok limit overlap wordTok x a hPa
  rw [splitText_eq]
  by_cases hcur : ((sentTok (clean_text_advanced text)).foldl
      (processSentence tok limit overlap wordTok) ([], [])).2 ≠ []
  · rw [if_pos hcur]
    simp
  · rw [if_neg hcur]
    rcases hfold with h | h
    · exact h
    · exact absurd h hcur

/-- C4, witness: the theorem applied to the concrete text "hello world" with
the character tokenizer and the repository's fallback segmenters. -/
theorem splitText_nonempty_of_nonempty_sentence_witness :
    splitText charTok 10 0 simple_sentence_split pySplitWs "hello world" ≠ [] :=
  splitText_nonempty_of_nonempty_sentence charTok 10 0 simple_sentence_split
    pySplitWs "hello world" (by decide) (by decide)

/-- C4, counterexample to the claim as stated: the input `"\x00"` is
non-empty, not whitespace-only (so it passes the entry point's validation),
and `limit > 0`, yet normalization removes its only character, sentence
segmentation of the empty normalized text yields no sentences, and the split
returns the empty sequence. -/
theorem splitText_empty_after_normalization :
    "\x00" ≠ "" ∧ pyStrip "\x00" ≠ "" ∧
    clean_text_advanced "\x00" = "" ∧
    simple_sentence_split "" = [] ∧
    splitText charTok 10 5 simple_sentence_split pySplitWs "\x00" = [] := by
  exact ⟨by decide, by decide, by decide, by decide, by decide⟩

/-! ## Claim C5 -/

/-- The words already committed to the state: words of the flushed chunks
followed by words of the in-progress buffer. -/
def stateWords (st : List String × List String) : List String :=
  st.1.flatMap pySplitWs ++ st.2.flatMap pySplitWs

theorem addToChunks_words (tok : Tok) (limit overlap : Nat) (u : String)
    (st : List String × List String) (pw : List String)
    (h : pw.Sublist (stateWords st)) :
    (pw ++ pySplitWs u).Sublist
      (stateWords (addToChunks tok limit overlap u st)) := by
  by_cases hov : limit < numTokens tok (pyJoinSp (st.2 ++ [u]))
  · rw [addToChunks_overflow _ _ _ _ _ hov]
    have h1 : pw.Sublist (stateWords st ++
        pySplitWs (pyStrip (tok.decode
          (pySliceFromNeg (tok.encode (pyJoinSp st.2)) overlap)))) :=
      h.trans (List.sublist_append_left _ _)
    have h2 := h1.append (List.Sublist.refl (pySplitWs u))
    simpa [stateWords, pySplitWs_pyJoinSp, List.append_assoc] using h2
  · rw [addToChunks_no_overflow _ _ _ _ _ hov]
    have h2 := h.append (List.Sublist.refl (pySplitWs u))
    simpa [stateWords, List.append_assoc] using h2

theorem processSub_words (tok : Tok) (limit overlap : Nat) (sub : String)
    (st : List String × List String) (pw : List String)
    (h : pw.Sublist (stateWords st)) :
    (pw ++ pySplitWs sub).Sublist
      (stateWords (processSub tok limit overlap st sub)) := by
  by_cases hskip : pyStrip sub = ""
  · rw [processSub_skip _ _ _ _ _ hskip]
    have : pySplitWs sub = [] := (pyStrip_eq_empty_iff_no_words sub).mp hskip
    simpa [this] using h
  by_cases hsmall : numTokens tok sub ≤ limit
  · rw [processSub_merge _ _ _ _ _ hskip hsmall]
    have := addToChunks_words tok limit overlap (pyStrip sub) st pw h
    rwa [pySplitWs_pyStrip] at this
  · rw [processSub_standalone _ _ _ _ _ hskip hsmall]
    have h2 := h.append (List.Sublist.refl (pySplitWs sub))
    by_cases hcur : st.2 ≠ []
    · rw [if_pos hcur]
      simpa [stateWords, pySplitWs_pyJoinSp, pySplitWs_pyStrip,
        List.append_assoc] using h2
    · have hnil : st.2 = [] := not_not.mp hcur
      rw [if_neg hcur]
      simpa [stateWords, hnil, pySplitWs_pyStrip, List.append_assoc] using h2

theorem flatMap_words_map_join (groups : List (List String)) :
    (groups.map pyJoinSp).flatMap pySplitWs =
      groups.flatten.flatMap pySplitWs := by
  induction groups with
  | nil => rfl
  | cons g gs ih =>
    simp only [List.map_cons, List.flatMap_cons, List.flatten_cons,
      List.flatMap_append, pySplitWs_pyJoinSp, ih]

theorem splitLongSentence_words (tok : Tok) (limit : Nat)
    (wordTok : String → List String) (s : String)
    (hWs : (wordTok s).flatMap pySplitWs = pySplitWs s) :
    (splitLongSentence tok limit wordTok s).flatMap pySplitWs = pySplitWs s := by
  by_cases hlen : (wordTok s).length ≤ 1
  · unfold splitLongSentence
    rw [if_pos hlen]
    simp
  · obtain ⟨groups, heq, hflat, _⟩ := splitLongSentence_spec tok limit wordTok s
      (by omega)
    rw [heq, flatMap_words_map_join, hflat, hWs]

theorem subsFold_words (tok : Tok) (limit overlap : Nat) (subs : List String) :
    ∀ (st : List String × List String) (pw : List String),
      pw.Sublist (stateWords st) →
      (pw ++ subs.flatMap pySplitWs).Sublist
        (stateWords (subs.foldl (processSub tok limit overlap) st)) := by
  induction subs with
  | nil =>
    intro st pw h
    simpa using h
  | cons sub rest ih =>
    intro st pw h
    rw [List.foldl_cons, List.flatMap_cons, ← List.append_assoc]
    exact ih _ (pw ++ pySplitWs sub)
      (processSub_words tok limit overlap sub st pw h)

theorem processSentence_words (tok : Tok) (limit overlap : Nat)
    (wordTok : String → List String) (raw : String)
    (st : List String × List String) (pw : List String)
    (hWraw : (wordTok (pyStrip raw)).flatMap pySplitWs = pySplitWs (pyStrip raw))
    (h : pw.Sublist (stateWords st)) :
    (pw ++ pySplitWs raw).Sublist
      (stateWords (processSentence tok limit overlap wordTok st raw)) := by
  by_cases hskip : pyStrip raw = ""
  · rw [processSentence_skip _ _ _ _ _ _ hskip]
    have : pySplitWs raw = [] := by
      rw [← pySplitWs_pyStrip, hskip]
      rfl
    simpa [this] using h
  by_cases hlong : limit + limit / 10 < numTokens tok (pyStrip raw)
  · rw [processSentence_long _ _ _ _ _ _ hskip hlong]
    have hsubs := subsFold_words tok limit overlap
      (splitLongSentence tok limit wordTok (pyStrip raw)) st pw h
    rwa [splitLongSentence_words tok limit wordTok (pyStrip raw) hWraw,
      pySplitWs_pyStrip] at hsubs
  · rw [processSentence_merge _ _ _ _ _ _ hskip hlong]
    have := addToChunks_words tok limit overlap (pyStrip raw) st pw h
    rwa [pySplitWs_pyStrip] at this

theorem sentsFold_words (tok : Tok) (limit overlap : Nat)
    (wordTok : String → List String) (sents : List String) :
    ∀ (st : List String × List String) (pw : List String),
      (∀ s ∈ sents,
        (wordTok (pyStrip s)).flatMap pySplitWs = pySplitWs (pyStrip s)) →
      pw.Sublist (stateWords st) →
      (pw ++ sents.flatMap pySplitWs).Sublist
        (stateWords (sents.foldl (processSentence tok limit overlap wordTok) st)) := by
  induction sents with
  | nil =>
    intro st pw _ h
    simpa using h
  | cons raw rest ih =>
    intro st pw hW h
    rw [List.foldl_cons, List.flatMap_cons, ← List.append_assoc]
    exact ih _ (pw ++ pySplitWs raw) (fun s hs => hW s (by simp [hs]))
      (processSentence_words tok limit overlap wordTok raw st pw
        (hW raw (by simp)) h)

/-- C5: concatenating, in order, all chunks returned by the split contains
every non-whitespace content word of the normalized input in original
document order (as a sublist of the word sequence) — no content word is
dropped by the sentence loop, the long-sentence path, or the merge step.
The hypotheses state that sentence segmentation preserves the word sequence
of the normalized text and word segmentation preserves each sentence's word
sequence (as NLTK's segmenters do on this text). -/
theorem splitText_preserves_words (tok : Tok) (limit overlap : Nat)
    (sentTok wordTok : String → List String) (text : String)
    (hS : (sentTok (clean_text_advanced text)).flatMap pySplitWs =
      pySplitWs (clean_text_advanced text))
    (hW : ∀ s ∈ sentTok (clean_text_advanced text),
      (wordTok (pyStrip s)).flatMap pySplitWs = pySplitWs (pyStrip s)) :
    (pySplitWs (clean_text_advanced text)).Sublist
      (pySplitWs (pyJoinSp (splitText tok limit overlap sentTok wordTok text))) := by
  have hgo := sentsFold_words tok limit overlap wordTok
    (sentTok (clean_text_advanced text)) ([], []) [] hW
    (by simp [stateWords])
  rw [List.nil_append, hS] at hgo
  rw [splitText_eq]
  by_cases hcur : ((sentTok (clean_text_advanced text)).foldl
      (processSentence tok limit overlap wordTok) ([], [])).2 ≠ []
  · rw [if_pos hcur, pySplitWs_pyJoinSp]
    simpa [stateWords, pySplitWs_pyJoinSp, List.append_assoc] using hgo
  · have hnil := not_not.mp hcur
    rw [if_neg hcur, pySplitWs_pyJoinSp]
    simpa [stateWords, hnil] using hgo

/-- C5, witness: the theorem applied to the text "hello world" with the
character tokenizer and the repository's fallback segmenters. -/
theorem splitText_preserves_words_witness :
    (pySplitWs (clean_text_advanced "hello world")).Sublist
      (pySplitWs (pyJoinSp (splitText charTok 10 0 simple_sentence_split
        pySplitWs "hello world"))) :=
  splitText_preserves_words charTok 10 0 simple_sentence_split pySplitWs
    "hello world" (by decide) (by decide)

/-! ## Claim C1 -/

theorem pyJoinSp_pair (a b : String) : pyJoinSp [a, b] = a ++ " " ++ b := rfl

/-- A chunk that the claim's one permitted exception covers: an atomic
sub-fragment of some sentence's word-level decomposition whose own token
count exceeds the limit, emitted verbatim (stripped) as its own chunk. -/
def OversizedStandalone (tok : Tok) (limit : Nat)
    (wordTok : String → List String) (sents : List String) (c : String) : Prop :=
  ∃ s ∈ sents, ∃ sub ∈ splitLongSentence tok limit wordTok (pyStrip s),
    limit < numTokens tok sub ∧ c = pyStrip sub

/-- C1's state-invariant: flushed chunks obey the slack-plus-overlap bound
or are oversized standalones; the buffer, when non-empty, obeys the bound. -/
def BoundInv (tok : Tok) (B : Nat) (SO : String → Prop)
    (st : List String × List String) : Prop :=
  (∀ c ∈ st.1, numTokens tok c ≤ B ∨ SO c) ∧
  (st.2 = [] ∨ numTokens tok (pyJoinSp st.2) ≤ B)

theorem numTokens_empty (tok : Tok) (hempty : tok.encode "" = []) :
    numTokens tok "" = 0 := by
  unfold numTokens
  rw [hempty]
  rfl

theorem addToChunks_preserves_bound (tok : Tok) (limit overlap : Nat)
    (hov : 0 < overlap)
    (htrim : ∀ s : String, numTokens tok (pyStrip s) ≤ numTokens tok s)
    (hdec : ∀ ids : List Nat, numTokens tok (tok.decode ids) ≤ ids.length)
    (hjoin : ∀ a b : String,
      numTokens tok (a ++ " " ++ b) ≤ numTokens tok a + numTokens tok b + 1)
    (hempty : tok.encode "" = [])
    (SO : String → Prop) (u : String)
    (hu : numTokens tok u ≤ limit + limit / 10)
    (st : List String × List String)
    (hP : BoundInv tok (limit + limit / 10 + overlap + 1) SO st) :
    BoundInv tok (limit + limit / 10 + overlap + 1) SO
      (addToChunks tok limit overlap u st) := by
  obtain ⟨h1, h2⟩ := hP
  by_cases hovf : limit < numTokens tok (pyJoinSp (st.2 ++ [u]))
  · rw [addToChunks_overflow _ _ _ _ _ hovf]
    constructor
    · intro c hc
      rcases List.mem_append.mp hc with h | h
      · exact h1 c h
      · rw [List.mem_singleton] at h
        subst h
        left
        rcases h2 with h | h
        · rw [h]
          show numTokens tok (pyJoinSp []) ≤ _
          rw [show pyJoinSp [] = "" from rfl, numTokens_empty tok hempty]
          omega
        · omega
    · right
      rw [pyJoinSp_pair]
      have hseed : numTokens tok (pyStrip (tok.decode
          (pySliceFromNeg (tok.encode (pyJoinSp st.2)) overlap))) ≤ overlap := by
        calc numTokens tok (pyStrip (tok.decode
              (pySliceFromNeg (tok.encode (pyJoinSp st.2)) overlap)))
            ≤ numTokens tok (tok.decode
              (pySliceFromNeg (tok.encode (pyJoinSp st.2)) overlap)) := htrim _
          _ ≤ (pySliceFromNeg (tok.encode (pyJoinSp st.2)) overlap).length :=
              hdec _
          _ ≤ overlap := pySliceFromNeg_length_le _ overlap hov
      calc numTokens tok (pyStrip (tok.decode
            (pySliceFromNeg (tok.encode (pyJoinSp st.2)) overlap)) ++ " " ++ u)
          ≤ numTokens tok (pyStrip (tok.decode
            (pySliceFromNeg (tok.encode (pyJoinSp st.2)) overlap))) +
            numTokens tok u + 1 := hjoin _ _
        _ ≤ overlap + (limit + limit / 10) + 1 := by omega
        _ ≤ limit + limit / 10 + overlap + 1 := by omega
  · rw [addToChunks_no_overflow _ _ _ _ _ hovf]
    refine ⟨h1, Or.inr ?_⟩
    show numTokens tok (pyJoinSp (st.2 ++ [u])) ≤ _
    have : numTokens tok (pyJoinSp (st.2 ++ [u])) ≤ limit := Nat.not_lt.mp hovf
    omega

theorem processSub_preserves_bound (tok : Tok) (limit overlap : Nat)
    (hov : 0 < overlap)
    (htrim : ∀ s : String, numTokens tok (pyStrip s) ≤ numTokens tok s)
    (hdec : ∀ ids : List Nat, numTokens tok (tok.decode ids) ≤ ids.length)
    (hjoin : ∀ a b : String,
      numTokens tok (a ++ " " ++ b) ≤ numTokens tok a + numTokens tok b + 1)
    (hempty : tok.encode "" = [])
    (SO : String → Prop) (sub : String)
    (hso : limit < numTokens tok sub → SO (pyStrip sub))
    (st : List String × List String)
    (hP : BoundInv tok (limit + limit / 10 + overlap + 1) SO st) :
    BoundInv tok (limit + limit / 10 + overlap + 1) SO
      (processSub tok limit overlap st sub) := by
  obtain ⟨h1, h2⟩ := hP
  by_cases hskip : pyStrip sub = ""
  · rw [processSub_skip _ _ _ _ _ hskip]
    exact ⟨h1, h2⟩
  by_cases hsmall : numTokens tok sub ≤ limit
  · rw [processSub_merge _ _ _ _ _ hskip hsmall]
    exact addToChunks_preserves_bound tok limit overlap hov htrim hdec hjoin
      hempty SO (pyStrip sub)
      (le_trans (le_trans (htrim sub) hsmall) (by omega)) st ⟨h1, h2⟩
  · rw [processSub_standalone _ _ _ _ _ hskip hsmall]
    refine ⟨?_, Or.inl rfl⟩
    intro c hc
    rcases List.mem_append.mp hc with h | h
    · by_cases hcur : st.2 ≠ []
      · rw [if_pos hcur] at h
        rcases List.mem_append.mp h with h' | h'
        · exact h1 c h'
        · rw [List.mem_singleton] at h'
          subst h'
          left
          rcases h2 with h'' | h''
          · exact absurd h'' hcur
          · exact h''
      · rw [if_neg hcur] at h
        exact h1 c h
    · rw [List.mem_singleton] at h
      subst h
      right
      exact hso (Nat.not_le.mp hsmall)

theorem processSentence_preserves_bound (tok : Tok) (limit overlap : Nat)
    (wordTok : String → List String)
    (hov : 0 < overlap)
    (htrim : ∀ s : String, numTokens tok (pyStrip s) ≤ numTokens tok s)
    (hdec : ∀ ids : List Nat, numTokens tok (tok.decode ids) ≤ ids.length)
    (hjoin : ∀ a b : String,
      numTokens tok (a ++ " " ++ b) ≤ numTokens tok a + numTokens tok b + 1)
    (hempty : tok.encode "" = [])
    (sents : List String) (raw : String) (hraw : raw ∈ sents)
    (st : List String × List String)
    (hP : BoundInv tok (limit + limit / 10 + overlap + 1)
      (OversizedStandalone tok limit wordTok sents) st) :
    BoundInv tok (limit + limit / 10 + overlap + 1)
      (OversizedStandalone tok limit wordTok sents)
      (processSentence tok limit overlap wordTok st raw) := by
  by_cases hskip : pyStrip raw = ""
  · rw [processSentence_skip _ _ _ _ _ _ hskip]
    exact hP
  by_cases hlong : limit + limit / 10 < numTokens tok (pyStrip raw)
  · rw [processSentence_long _ _ _ _ _ _ hskip hlong]
    apply foldl_induction (processSub tok limit overlap) _ st _ hP
    intro a b hb hPa
    exact processSub_preserves_bound tok limit overlap hov htrim hdec hjoin
      hempty _ b (fun hbig => ⟨raw, hraw, b, hb, hbig, rfl⟩) a hPa
  · rw [processSentence_merge _ _ _ _ _ _ hskip hlong]
    exact addToChunks_preserves_bound tok limit overlap hov htrim hdec hjoin
      hempty _ (pyStrip raw) (Nat.not_lt.mp hlong) st hP

/-- C1 (amended): with a positive overlap, every chunk returned by the split
either has token count at most `limit + floor(limit*0.1) + overlap + 1`, or
is an atomic oversized sub-fragment emitted verbatim as its own standalone
chunk.  The claim's stricter bound — flushed merge-buffer chunks never
exceed `limit` itself — is false: a buffer re-seeded with overlap text plus
a sentence is flushed without a re-check (see the counterexample).  The
tokenizer hypotheses (trimming and decoding do not increase token counts,
joining two texts with a space costs at most one extra token, the empty text
has no tokens) hold for the character tokenizer and for the byte-pair
encoding. -/
theorem splitText_token_bound (tok : Tok) (limit overlap : Nat)
    (sentTok wordTok : String → List String) (text : String)
    (hov : 0 < overlap)
    (htrim : ∀ s : String, numTokens tok (pyStrip s) ≤ numTokens tok s)
    (hdec : ∀ ids : List Nat, numTokens tok (tok.decode ids) ≤ ids.length)
    (hjoin : ∀ a b : String,
      numTokens tok (a ++ " " ++ b) ≤ numTokens tok a + numTokens tok b + 1)
    (hempty : tok.encode "" = []) :
    ∀ c ∈ splitText tok limit overlap sentTok wordTok text,
      numTokens tok c ≤ limit + limit / 10 + overlap + 1 ∨
      OversizedStandalone tok limit wordTok
        (sentTok (clean_text_advanced text)) c := by
  intro c hc
  have hfold : BoundInv tok (limit + limit / 10 + overlap + 1)
      (OversizedStandalone tok limit wordTok (sentTok (clean_text_advanced text)))
      ((sentTok (clean_text_advanced text)).foldl
        (processSentence tok limit overlap wordTok) ([], [])) := by
    apply foldl_induction (processSentence tok limit overlap wordTok) _ ([], [])
      _ ⟨by simp, Or.inl rfl⟩
    intro a b hb hPa
    exact processSentence_preserves_bound tok limit overlap wordTok hov htrim
      hdec hjoin hempty _ b hb a hPa
  rw [splitText_eq] at hc
  by_cases hcur : ((sentTok (clean_text_advanced text)).foldl
      (processSentence tok limit overlap wordTok) ([], [])).2 ≠ []
  · rw [if_pos hcur] at hc
    rcases List.mem_append.mp hc with h | h
    · exact hfold.1 c h
    · rw [List.mem_singleton] at h
      subst h
      left
      rcases hfold.2 with h' | h'
      · exact absurd h' hcur
      · exact h'
  · rw [if_neg hcur] at hc
    exact hfold.1 c hc

/-- C1, witness: the theorem applied with the character tokenizer, limit 10,
overlap 5, to "abcdefg. ABCDEFGH.": the second chunk "cdefg ABCDEFGH." obeys
the amended bound `10 + 1 + 5 + 1`. -/
theorem splitText_token_bound_witness :
    numTokens charTok "cdefg ABCDEFGH." ≤ 10 + 10 / 10 + 5 + 1 ∨
    OversizedStandalone charTok 10 pySplitWs
      (simple_sentence_split (clean_text_advanced "abcdefg. ABCDEFGH."))
      "cdefg ABCDEFGH." :=
  splitText_token_bound charTok 10 5 simple_sentence_split pySplitWs
    "abcdefg. ABCDEFGH." (by decide) charTok_strip_le
    (fun ids => le_of_eq (charTok_decode_length ids)) charTok_join_le rfl
    "cdefg ABCDEFGH." (by decide)

/-- C1, counterexample to the claim as stated: with the character tokenizer,
limit 10, overlap 5, the input "abcdefg. ABCDEFGH." has two sentences of 7
and 9 tokens — both within the limit, so no atomic oversized unit exists —
yet the second returned chunk, produced by flushing the merge buffer that
was re-seeded with overlap text plus a sentence, has 15 > 10 tokens. -/
theorem splitText_reseeded_flush_exceeds_limit :
    splitText charTok 10 5 simple_sentence_split pySplitWs
      "abcdefg. ABCDEFGH." = ["abcdefg", "cdefg ABCDEFGH."] ∧
    10 < numTokens charTok "cdefg ABCDEFGH." ∧
    (∀ s ∈ simple_sentence_split (clean_text_advanced "abcdefg. ABCDEFGH."),
      numTokens charTok (pyStrip s) ≤ 10) := by
  exact ⟨by decide, by decide, by decide⟩

/-! ## Claim C7 -/

theorem unescapeFuel_no_amp (f : Nat) (l : List Char) (h : '&' ∉ l) :
    unescapeFuel f l = l := by
  induction f generalizing l with
  | zero => cases l <;> rfl
  | succ f ih =>
    cases l with
    | nil => rfl
    | cons c rest =>
      have hc : ¬ c = '&' := by
        intro hcon
        exact h (by simp [hcon])
      show (if c = '&' then _ else c :: unescapeFuel f rest) = c :: rest
      rw [if_neg hc, ih rest (fun hm => h (by simp [hm]))]

theorem unescapeAux_no_amp (l : List Char) (h : '&' ∉ l) : unescapeAux l = l :=
  unescapeFuel_no_amp _ l h

theorem htmlUnescape_no_amp (s : String) (h : '&' ∉ s.data) :
    htmlUnescape s = s := by
  unfold htmlUnescape
  rw [unescapeAux_no_amp s.data h]

theorem splitAtLt_no_lt (l : List Char) (h : '<' ∉ l) :
    splitAtLt l = (l, none) := by
  induction l with
  | nil => rfl
  | cons c rest ih =>
    have hc : ¬ c = '<' := by
      intro hcon
      exact h (by simp [hcon])
    show (if c = '<' then ([], some rest)
      else ((c :: (splitAtLt rest).1, (splitAtLt rest).2))) = (c :: rest, none)
    rw [if_neg hc, ih (fun hm => h (by simp [hm]))]

theorem pendingAmpRev_no_amp (l : List Char) (h : '&' ∉ l) :
    pendingAmpRev l = false := by
  induction l with
  | nil => rfl
  | cons c rest ih =>
    have hc : ¬ c = '&' := by
      intro hcon
      exact h (by simp [hcon])
    show (if c = '&' then true
      else if isWsPy c || c = ';' then false else pendingAmpRev rest) = false
    rw [if_neg hc]
    by_cases hstop : (isWsPy c || c = ';') = true
    · rw [if_pos hstop]
    · rw [if_neg hstop]
      exact ih (fun hm => h (by simp [hm]))

theorem pendingAmp_no_amp (l : List Char) (h : '&' ∉ l) :
    pendingAmp l = false := by
  unfold pendingAmp
  apply pendingAmpRev_no_amp
  intro hm
  rw [List.mem_reverse] at hm
  exact h (List.mem_of_mem_drop hm)

theorem stripAux_no_tags (f : Nat) (l : List Char) (hlt : '<' ∉ l)
    (hamp : '&' ∉ l) : stripAux (f + 1) l = l := by
  show (match splitAtLt l with
    | (pre, none) => if pendingAmp pre then [] else unescapeAux pre
    | (pre, some post) =>
      unescapeAux pre ++
        match post with
        | [] => []
        | c :: rest =>
          if c.isAlpha || c = '/' || c = '!' || c = '?' then
            match dropToGt (c :: rest) with
            | some rest2 => stripAux f rest2
            | none => []
          else '<' :: stripAux f (c :: rest)) = l
  rw [splitAtLt_no_lt l hlt]
  show (if pendingAmp l then [] else unescapeAux l) = l
  rw [pendingAmp_no_amp l hamp]
  show unescapeAux l = l
  exact unescapeAux_no_amp l hamp

theorem stripTags_eq_self (s : String) (hlt : '<' ∉ s.data)
    (hamp : '&' ∉ s.data) : stripTags s = s := by
  unfold stripTags
  rw [stripAux_no_tags s.data.length s.data hlt hamp]

theorem filterPrintable_eq_self (s : String)
    (h : ∀ c ∈ s.data, isPrintablePy c = true) : filterPrintable s = s := by
  unfold filterPrintable
  rw [List.filter_eq_self.mpr h]

/-- No two adjacent whitespace characters (the shape `re.sub(r'\s+', ' ')`
leaves behind). -/
def noAdjWs : List Char → Prop
  | [] => True
  | [_] => True
  | a :: b :: t => ¬(isWsPy a = true ∧ isWsPy b = true) ∧ noAdjWs (b :: t)

theorem noAdjWs_nil : noAdjWs [] := trivial

theorem noAdjWs_tail (c : Char) (t : List Char) (h : noAdjWs (c :: t)) :
    noAdjWs t := by
  cases t with
  | nil => trivial
  | cons b t2 => exact h.2

theorem noAdjWs_cons_intro (c : Char) (t : List Char) (ht : noAdjWs t)
    (hhead : ∀ d, t.head? = some d → ¬(isWsPy c = true ∧ isWsPy d = true)) :
    noAdjWs (c :: t) := by
  cases t with
  | nil => trivial
  | cons b t2 => exact ⟨hhead b rfl, ht⟩

theorem noAdjWs_head (c : Char) (t : List Char) (h : noAdjWs (c :: t)) :
    ∀ d, t.head? = some d → ¬(isWsPy c = true ∧ isWsPy d = true) := by
  intro d hd
  cases t with
  | nil => simp at hd
  | cons b t2 =>
    simp only [List.head?_cons, Option.some.injEq] at hd
    subst hd
    exact h.1

theorem noAdjWs_append_right (a b : List Char) (h : noAdjWs (a ++ b)) :
    noAdjWs b := by
  induction a with
  | nil => exact h
  | cons c t ih => exact ih (noAdjWs_tail c (t ++ b) h)

theorem noAdjWs_append_left (a b : List Char) (h : noAdjWs (a ++ b)) :
    noAdjWs a := by
  induction a with
  | nil => trivial
  | cons c t ih =>
    apply noAdjWs_cons_intro c t (ih (noAdjWs_tail c (t ++ b) h))
    intro d hd
    apply noAdjWs_head c (t ++ b) h d
    cases t with
    | nil => simp at hd
    | cons x t2 =>
      simp only [List.head?_cons, Option.some.injEq] at hd
      simp [hd]

/-- Shape of the collapse pass: whitespace is only `' '`, every character is
a space or comes from the input, no two adjacent whitespace characters, and
the skip mode starts with a non-whitespace character. -/
theorem collapse_shape (n : Nat) : ∀ l : List Char, l.length ≤ n →
    ((∀ c ∈ collapseAux l, isWsPy c = true → c = ' ') ∧
     (∀ c ∈ collapseAux l, c = ' ' ∨ c ∈ l) ∧
     noAdjWs (collapseAux l)) ∧
    ((∀ c ∈ collapseSkip l, isWsPy c = true → c = ' ') ∧
     (∀ c ∈ collapseSkip l, c = ' ' ∨ c ∈ l) ∧
     noAdjWs (collapseSkip l) ∧
     (∀ d, (collapseSkip l).head? = some d → isWsPy d = false)) := by
  induction n with
  | zero =>
    intro l hl
    have : l = [] := List.length_eq_zero.mp (Nat.le_zero.mp hl)
    subst this
    refine ⟨⟨by simp [collapseAux], by simp [collapseAux], ?_⟩,
      by simp [collapseSkip], by simp [collapseSkip], ?_, by simp [collapseSkip]⟩
    · show noAdjWs []
      trivial
    · show noAdjWs []
      trivial
  | succ n ih =>
    intro l hl
    cases l with
    | nil =>
      refine ⟨⟨by simp [collapseAux], by simp [collapseAux], noAdjWs_nil⟩,
        by simp [collapseSkip], by simp [collapseSkip], noAdjWs_nil,
        by simp [collapseSkip]⟩
    | cons c t =>
      have ht : t.length ≤ n := by
        simp only [List.length_cons] at hl
        omega
      obtain ⟨⟨ha1, ha2, ha3⟩, hs1, hs2, hs3, hs4⟩ := ih t ht
      constructor
      · by_cases hws : isWsPy c = true
        · have heq : collapseAux (c :: t) = ' ' :: collapseSkip t := by
            show (if isWsPy c then ' ' :: collapseSkip t else c :: collapseAux t) = _
            rw [if_pos hws]
          rw [heq]
          refine ⟨?_, ?_, ?_⟩
          · intro d hd
            rcases List.mem_cons.mp hd with h | h
            · exact fun _ => h
            · exact hs1 d h
          · intro d hd
            rcases List.mem_cons.mp hd with h | h
            · exact Or.inl h
            · rcases hs2 d h with h' | h'
              · exact Or.inl h'
              · exact Or.inr (by simp [h'])
          · apply noAdjWs_cons_intro _ _ hs3
            intro d hd hcon
            have := hs4 d hd
            rw [this] at hcon
            exact Bool.false_ne_true hcon.2
        · have heq : collapseAux (c :: t) = c :: collapseAux t := by
            show (if isWsPy c then ' ' :: collapseSkip t else c :: collapseAux t) = _
            rw [if_neg hws]
          rw [heq]
          refine ⟨?_, ?_, ?_⟩
          · intro d hd
            rcases List.mem_cons.mp hd with h | h
            · subst h
              intro hcon
              exact absurd hcon hws
            · exact ha1 d h
          · intro d hd
            rcases List.mem_cons.mp hd with h | h
            · exact Or.inr (by simp [h])
            · rcases ha2 d h with h' | h'
              · exact Or.inl h'
              · exact Or.inr (by simp [h'])
          · apply noAdjWs_cons_intro _ _ ha3
            intro d _ hcon
            exact hws hcon.1
      · by_cases hws : isWsPy c = true
        · have heq : collapseSkip (c :: t) = collapseSkip t := by
            show (if isWsPy c then collapseSkip t else c :: collapseAux t) = _
            rw [if_pos hws]
          rw [heq]
          refine ⟨?_, ?_, hs3, hs4⟩
          · exact hs1
          · intro d hd
            rcases hs2 d hd with h' | h'
            · exact Or.inl h'
            · exact Or.inr (by simp [h'])
        · have heq : collapseSkip (c :: t) = c :: collapseAux t := by
            show (if isWsPy c then collapseSkip t else c :: collapseAux t) = _
            rw [if_neg hws]
          rw [heq]
          refine ⟨?_, ?_, ?_, ?_⟩
          · intro d hd
            rcases List.mem_cons.mp hd with h | h
            · subst h
              intro hcon
              exact absurd hcon hws
            · exact ha1 d h
          · intro d hd
            rcases List.mem_cons.mp hd with h | h
            · exact Or.inr (by simp [h])
            · rcases ha2 d h with h' | h'
              · exact Or.inl h'
              · exact Or.inr (by simp [h'])
          · apply noAdjWs_cons_intro _ _ ha3
            intro d _ hcon
            exact hws hcon.1
          · intro d hd
            simp only [List.head?_cons, Option.some.injEq] at hd
            subst hd
            simpa using hws

theorem collapse_eq_self (n : Nat) : ∀ l : List Char, l.length ≤ n →
    ((∀ c ∈ l, isWsPy c = true → c = ' ') → noAdjWs l → collapseAux l = l) ∧
    ((∀ d, l.head? = some d → isWsPy d = false) →
      (∀ c ∈ l, isWsPy c = true → c = ' ') → noAdjWs l → collapseSkip l = l) := by
  induction n with
  | zero =>
    intro l hl
    have : l = [] := List.length_eq_zero.mp (Nat.le_zero.mp hl)
    subst this
    exact ⟨fun _ _ => rfl, fun _ _ _ => rfl⟩
  | succ n ih =>
    intro l hl
    cases l with
    | nil => exact ⟨fun _ _ => rfl, fun _ _ _ => rfl⟩
    | cons c t =>
      have ht : t.length ≤ n := by
        simp only [List.length_cons] at hl
        omega
      obtain ⟨ihA, ihS⟩ := ih t ht
      constructor
      · intro hws hadj
        by_cases hc : isWsPy c = true
        · have hcsp : c = ' ' := hws c (by simp) hc
          have heq : collapseAux (c :: t) = ' ' :: collapseSkip t := by
            show (if isWsPy c then ' ' :: collapseSkip t else c :: collapseAux t) = _
            rw [if_pos hc]
          rw [heq, hcsp]
          have hskip : collapseSkip t = t := by
            apply ihS
            · intro d hd
              have hnot := noAdjWs_head c t hadj d hd
              cases hdw : isWsPy d with
              | false => rfl
              | true => exact absurd ⟨hc, hdw⟩ hnot
            · exact fun x hx => hws x (by simp [hx])
            · exact noAdjWs_tail c t hadj
          rw [hskip]
        · have heq : collapseAux (c :: t) = c :: collapseAux t := by
            show (if isWsPy c then ' ' :: collapseSkip t else c :: collapseAux t) = _
            rw [if_neg hc]
          rw [heq, ihA (fun x hx => hws x (by simp [hx])) (noAdjWs_tail c t hadj)]
      · intro hhead hws hadj
        have hc : isWsPy c = false := hhead c rfl
        have heq : collapseSkip (c :: t) = c :: collapseAux t := by
          show (if isWsPy c then collapseSkip t else c :: collapseAux t) = _
          rw [if_neg (by simp [hc])]
        rw [heq, ihA (fun x hx => hws x (by simp [hx])) (noAdjWs_tail c t hadj)]

theorem mem_dropLeadWs (l : List Char) (c : Char) (h : c ∈ dropLeadWs l) :
    c ∈ l := by
  have hsplit := List.takeWhile_append_dropWhile (p := isWsPy) (l := l)
  rw [← hsplit]
  exact List.mem_append.mpr (Or.inr h)

theorem mem_dropTrailWs (l : List Char) (c : Char) (h : c ∈ dropTrailWs l) :
    c ∈ l := by
  obtain ⟨suf, hsplit, _⟩ := dropTrailWs_spec l
  rw [hsplit]
  exact List.mem_append.mpr (Or.inl h)

theorem mem_pyStrip (s : String) (c : Char) (h : c ∈ (pyStrip s).data) :
    c ∈ s.data := by
  rw [pyStrip_data] at h
  exact mem_dropLeadWs s.data c (mem_dropTrailWs (dropLeadWs s.data) c h)

theorem noAdjWs_dropLeadWs (l : List Char) (h : noAdjWs l) :
    noAdjWs (dropLeadWs l) := by
  have hsplit := List.takeWhile_append_dropWhile (p := isWsPy) (l := l)
  apply noAdjWs_append_right (l.takeWhile isWsPy)
  show noAdjWs (l.takeWhile isWsPy ++ l.dropWhile isWsPy)
  rw [hsplit]
  exact h

theorem noAdjWs_dropTrailWs (l : List Char) (h : noAdjWs l) :
    noAdjWs (dropTrailWs l) := by
  obtain ⟨suf, hsplit, _⟩ := dropTrailWs_spec l
  apply noAdjWs_append_left _ suf
  rw [← hsplit]
  exact h

theorem noAdjWs_pyStrip (s : String) (h : noAdjWs s.data) :
    noAdjWs (pyStrip s).data := by
  rw [pyStrip_data]
  exact noAdjWs_dropTrailWs _ (noAdjWs_dropLeadWs _ h)

theorem clean_text_advanced_of_ne (t : String) (h : t ≠ "") :
    clean_text_advanced t =
      collapseWs (filterPrintable (nfkdNormalize (stripTags (htmlUnescape t)))) := by
  unfold clean_text_advanced
  rw [if_neg h]

/-- Shape of the normalizer's output: printable characters, every whitespace
character is a plain space, no two adjacent whitespace characters, and the
output is stripped. -/
theorem clean_text_advanced_shape (x : String) :
    (∀ c ∈ (clean_text_advanced x).data, isPrintablePy c = true) ∧
    (∀ c ∈ (clean_text_advanced x).data, isWsPy c = true → c = ' ') ∧
    noAdjWs (clean_text_advanced x).data ∧
    pyStrip (clean_text_advanced x) = clean_text_advanced x := by
  by_cases hx : x = ""
  · subst hx
    exact ⟨by intro c hc; simp [clean_text_advanced] at hc,
      by intro c hc; simp [clean_text_advanced] at hc, noAdjWs_nil, rfl⟩
  · have hcw : clean_text_advanced x =
        pyStrip (String.mk (collapseAux
          (filterPrintable (nfkdNormalize (stripTags (htmlUnescape x)))).data)) := by
      rw [clean_text_advanced_of_ne x hx]
      rfl
    obtain ⟨⟨hc1, hc2, hc3⟩, _⟩ := collapse_shape
      ((filterPrintable (nfkdNormalize (stripTags (htmlUnescape x)))).data.length)
      (filterPrintable (nfkdNormalize (stripTags (htmlUnescape x)))).data
      (le_refl _)
    refine ⟨?_, ?_, ?_, ?_⟩
    · intro c hc
      rw [hcw] at hc
      have hmem := mem_pyStrip _ c hc
      rcases hc2 c hmem with h | h
      · rw [h]
        rfl
      · have : c ∈ (nfkdNormalize (stripTags (htmlUnescape x))).data.filter
            isPrintablePy := h
        exact List.of_mem_filter this
    · intro c hc
      rw [hcw] at hc
      exact hc1 c (mem_pyStrip _ c hc)
    · rw [hcw]
      exact noAdjWs_pyStrip _ hc3
    · rw [hcw]
      exact pyStrip_idem _

/-- C7 (amended): the normalization `clean_text_advanced` is idempotent on
every ASCII input whose normalized form contains neither `'&'` nor `'<'`.
It is NOT idempotent in general: re-normalizing re-runs entity unescaping
and tag stripping on already-unescaped text (see the counterexample). -/
theorem clean_text_advanced_idempotent_on_tame (x : String)
    (_hascii : ∀ c ∈ x.data, c.toNat ≤ 127)
    (hamp : '&' ∉ (clean_text_advanced x).data)
    (hlt : '<' ∉ (clean_text_advanced x).data) :
    clean_text_advanced (clean_text_advanced x) = clean_text_advanced x := by
  obtain ⟨hprint, hws, hadj, hstrip⟩ := clean_text_advanced_shape x
  by_cases hempty : clean_text_advanced x = ""
  · rw [hempty]
    rfl
  · rw [clean_text_advanced_of_ne _ hempty, htmlUnescape_no_amp _ hamp,
      stripTags_eq_self _ hlt hamp,
      show nfkdNormalize (clean_text_advanced x) = clean_text_advanced x from rfl,
      filterPrintable_eq_self _ hprint]
    show pyStrip (String.mk (collapseAux (clean_text_advanced x).data)) =
      clean_text_advanced x
    rw [(collapse_eq_self (clean_text_advanced x).data.length
      (clean_text_advanced x).data (le_refl _)).1 hws hadj]
    exact hstrip

/-- C7, witness: idempotence of the normalizer at the ASCII input
"Hello,  world." (whose normalized form "Hello, world." has no `'&'` or
`'<'`), by the theorem. -/
theorem clean_text_advanced_idempotent_on_tame_witness :
    clean_text_advanced (clean_text_advanced "Hello,  world.") =
      clean_text_advanced "Hello,  world." :=
  clean_text_advanced_idempotent_on_tame "Hello,  world." (by decide)
    (by decide) (by decide)

/-- C7, counterexample to the claim as stated: normalization is not
idempotent.  For the input `"&amp;lt;"`, one normalization yields `"<"`
(the unescape turns `&amp;lt;` into `&lt;`, and the tag stripper's
charref conversion turns that into `<`), but normalizing again feeds the
lone `'<'` to the tag stripper, which buffers it as an unterminated tag and
emits nothing. -/
theorem clean_text_advanced_not_idempotent :
    clean_text_advanced "&amp;lt;" = "<" ∧
    clean_text_advanced (clean_text_advanced "&amp;lt;") = "" ∧
    clean_text_advanced (clean_text_advanced "&amp;lt;") ≠
      clean_text_advanced "&amp;lt;" := by
  exact ⟨by decide, by decide, by decide⟩
